import Mathlib

/-!
# Binary codec of the immutable radix tree (`encoding.go`)

A shallow embedding of `src/encoding.go` and a verification of its
serialisation format.

Modelling conventions.

* `[]byte` is `List Byte` with `Byte = Fin 256`; Go's `nil` slice and the
  empty slice are both `[]` (spec §4.1 treats them as equivalent).
* `uint64` is a `Nat` reduced `% 2^64` at every conversion, `int` is an `Int`
  (64-bit two's complement, conversions written out in `uint64` and `int`).
* A pointer that may be `nil` is an `Option`.  The runtime only `mutateCh`
  channels are not part of the model (the tests strip them as well).
* `interface{}` is `Option V` for an arbitrary type `V` (`none` is Go's `nil`).
* An out-of-range index or slice expression panics in Go; the decoders return
  `Except DecodeError`, and such a panic is `DecodeError.TruncatedInput`.
* `decodeNode` recurses through `decodeEdges` and `decodeEdge`; the model
  bounds the nesting depth of `decodeNode` calls by a `fuel` argument and
  reports `DecodeError.OutOfFuel` when it is exhausted.  `decodeEdge` and
  `decodeEdges` are `decodeEdgeWith` and `decodeEdgesWith` applied to the
  decoder one level down.
* The types `Tree`, `Node`, `leafNode` and `edge` are declared outside
  `encoding.go`; their fields are the ones the codec and its test read.
* `New` and `Insert`, which the test uses to build its tree, are outside
  `encoding.go` as well; they are modelled from the data model of the spec.

The file has three parts: the embedding and the definitions used to state the
results (`Tree.WF`, `Node.depth`, `Node.mapVal`, the byte layout `serTree` of
spec §6, `ReadsEdges`), the lemmas (layout, round trip, fuel, truncation), and
the verified claims.
-/

namespace Iradix

/-! ## Data model -/

/-- One Go `byte`. -/
abbrev Byte := Fin 256

/-- Conversion `byte(v)` of an unsigned integer: the low eight bits. -/
def byte (v : Nat) : Byte := ⟨v % 256, Nat.mod_lt _ (by decide)⟩

/-- Conversion `uint64(i)` of a Go `int`. -/
def uint64 (i : Int) : Nat := (i % 2 ^ 64).toNat

/-- Conversion `int(v)` of a Go `uint64` (two's complement). -/
def int (v : Nat) : Int := if v % 2 ^ 64 < 2 ^ 63 then (v % 2 ^ 64 : Nat) else (v % 2 ^ 64 : Nat) - 2 ^ 64

/-- The Go struct `leafNode` without its channel. -/
structure leafNode (V : Type) where
  key : List Byte
  val : Option V
deriving DecidableEq

mutual
/-- The Go struct `Node` without its channel: optional leaf, prefix, edges. -/
inductive Node (V : Type) where
  | mk (leaf : Option (leafNode V)) (pfx : List Byte) (edges : List (edge V)) : Node V
/-- The Go struct `edge`: a label and an optional child node. -/
inductive edge (V : Type) where
  | mk (label : Byte) (node : Option (Node V)) : edge V
end

/-- The Go struct `Tree`. -/
structure Tree (V : Type) where
  root : Option (Node V)
  size : Int

/-- The ways a decoder can stop without a result. -/
inductive DecodeError where
  | TruncatedInput
  | OutOfFuel
deriving DecidableEq

/-- The Go interface `ValueEncoder`.  `Decode` may fail (panic). -/
structure ValueEncoder (V : Type) where
  Encode : List Byte → Option V → List Byte
  Decode : List Byte → Except DecodeError (Option V × List Byte)

def Node.leaf {V : Type} : Node V → Option (leafNode V)
  | .mk l _ _ => l

def Node.pfx {V : Type} : Node V → List Byte
  | .mk _ p _ => p

def Node.edges {V : Type} : Node V → List (edge V)
  | .mk _ _ es => es

def edge.label {V : Type} : edge V → Byte
  | .mk l _ => l

def edge.node {V : Type} : edge V → Option (Node V)
  | .mk _ n => n

/-! ## Primitive codec -/

def putUInt64 (dst : List Byte) (v : Nat) : List Byte :=
  dst ++ [byte (v >>> 56), byte (v >>> 48), byte (v >>> 40), byte (v >>> 32),
          byte (v >>> 24), byte (v >>> 16), byte (v >>> 8), byte v]

def readUInt64 (src : List Byte) : Except DecodeError (Nat × List Byte) :=
  match src with
  | b0 :: b1 :: b2 :: b3 :: b4 :: b5 :: b6 :: b7 :: rest =>
    .ok (b7.val + b6.val * 2 ^ 8 + b5.val * 2 ^ 16 + b4.val * 2 ^ 24 + b3.val * 2 ^ 32
          + b2.val * 2 ^ 40 + b1.val * 2 ^ 48 + b0.val * 2 ^ 56, rest)
  | _ => .error .TruncatedInput

def putBool (dst : List Byte) (v : Bool) : List Byte :=
  let b : Byte := if v then 1 else 0
  dst ++ [b]

def readBool (src : List Byte) : Except DecodeError (Bool × List Byte) :=
  match src with
  | b :: rest => .ok (b == 1, rest)
  | [] => .error .TruncatedInput

def putBytes (dst : List Byte) (b : List Byte) : List Byte :=
  let dst := putUInt64 dst (b.length % 2 ^ 64)
  dst ++ b

def readBytes (src : List Byte) : Except DecodeError (List Byte × List Byte) :=
  match readUInt64 src with
  | .error err => .error err
  | .ok (l, src) =>
    if l > 0 then
      if l ≤ src.length then .ok (src.take l, src.drop l) else .error .TruncatedInput
    else .ok ([], src)

/-! ## Leaf, edge, node and tree codec -/

variable {V : Type}

def encodeLeafNode (e : Option (ValueEncoder V)) (dst : List Byte) (leaf : leafNode V) :
    List Byte :=
  let dst := putBytes dst leaf.key
  match e with
  | some enc => enc.Encode (putBool dst true) leaf.val
  | none => putBool dst false

def decodeLeafNode (e : Option (ValueEncoder V)) (data : List Byte) :
    Except DecodeError (leafNode V × List Byte) :=
  match readBytes data with
  | .error err => .error err
  | .ok (key, data) =>
    match readBool data with
    | .error err => .error err
    | .ok (hasValue, data) =>
      match hasValue, e with
      | true, some enc =>
        match enc.Decode data with
        | .error err => .error err
        | .ok (val, data) => .ok (⟨key, val⟩, data)
      | _, _ => .ok (⟨key, none⟩, data)

mutual
/-- The Go function `encodeNode`; its call of `encodeEdges` is written out as
the count followed by the loop `encodeEdges.loop`. -/
def encodeNode (e : Option (ValueEncoder V)) (dst : List Byte) : Node V → List Byte
  | .mk leaf pfx edges =>
    let dst := match leaf with
      | some l => encodeLeafNode e (putBool dst true) l
      | none => putBool dst false
    let dst := putBytes dst pfx
    encodeEdges.loop e (putUInt64 dst (edges.length % 2 ^ 64)) edges
/-- The `for _, edge := range edges` loop of `encodeEdges`. -/
def encodeEdges.loop (e : Option (ValueEncoder V)) (dst : List Byte) : List (edge V) → List Byte
  | [] => dst
  | ed :: rest => encodeEdges.loop e (encodeEdge e dst ed) rest
def encodeEdge (e : Option (ValueEncoder V)) (dst : List Byte) : edge V → List Byte
  | .mk label (some n) => encodeNode e (putBool (dst ++ [label]) true) n
  | .mk label none => putBool (dst ++ [label]) false
end

def encodeEdges (e : Option (ValueEncoder V)) (dst : List Byte) (edges : List (edge V)) :
    List Byte :=
  encodeEdges.loop e (putUInt64 dst (edges.length % 2 ^ 64)) edges

def EncodeTree (e : Option (ValueEncoder V)) (tree : Tree V) : List Byte :=
  let dst : List Byte := []
  let dst := match tree.root with
    | some root => encodeNode e (putBool dst true) root
    | none => putBool dst false
  putUInt64 dst (uint64 tree.size)

/-- The body of `decodeEdge`, over the decoder `dn` used for the child node. -/
def decodeEdgeWith (dn : List Byte → Except DecodeError (Node V × List Byte))
    (data : List Byte) : Except DecodeError (edge V × List Byte) :=
  match data with
  | [] => .error .TruncatedInput
  | label :: data =>
    match readBool data with
    | .error err => .error err
    | .ok (hasNode, data) =>
      if hasNode then
        match dn data with
        | .error err => .error err
        | .ok (n, data) => .ok (.mk label (some n), data)
      else .ok (.mk label none, data)

/-- The loop `for i := 0; i < int(l); i++` of `decodeEdges` with `k` iterations
left, over the edge decoder `de`. -/
def decodeEdges.loop (de : List Byte → Except DecodeError (edge V × List Byte)) :
    Nat → List (edge V) → List Byte → Except DecodeError (List (edge V) × List Byte)
  | 0, edges, data => .ok (edges, data)
  | k + 1, edges, data =>
    match de data with
    | .error err => .error err
    | .ok (ed, data) => decodeEdges.loop de k (edges ++ [ed]) data

/-- The body of `decodeEdges`, over the edge decoder `de`. -/
def decodeEdgesWith (de : List Byte → Except DecodeError (edge V × List Byte))
    (data : List Byte) : Except DecodeError (List (edge V) × List Byte) :=
  match readUInt64 data with
  | .error err => .error err
  | .ok (l, data) =>
    if l > 0 then decodeEdges.loop de (int l).toNat [] data else .ok ([], data)

/-- The Go function `decodeNode`; `fuel` bounds the depth of nested calls. -/
def decodeNode (e : Option (ValueEncoder V)) :
    Nat → List Byte → Except DecodeError (Node V × List Byte)
  | 0, _ => .error .OutOfFuel
  | fuel + 1, data =>
    match readBool data with
    | .error err => .error err
    | .ok (hasLeaf, data) =>
      let leafResult : Except DecodeError (Option (leafNode V) × List Byte) :=
        if hasLeaf then
          match decodeLeafNode e data with
          | .error err => .error err
          | .ok (l, data) => .ok (some l, data)
        else .ok (none, data)
      match leafResult with
      | .error err => .error err
      | .ok (leaf, data) =>
        match readBytes data with
        | .error err => .error err
        | .ok (pfx, data) =>
          match decodeEdgesWith (decodeEdgeWith (decodeNode e fuel)) data with
          | .error err => .error err
          | .ok (edges, data) => .ok (.mk leaf pfx edges, data)

/-- The Go function `decodeEdge` inside a `decodeNode` call with `fuel + 1`. -/
def decodeEdge (e : Option (ValueEncoder V)) (fuel : Nat) (data : List Byte) :
    Except DecodeError (edge V × List Byte) :=
  decodeEdgeWith (decodeNode e fuel) data

/-- The Go function `decodeEdges` inside a `decodeNode` call with `fuel + 1`. -/
def decodeEdges (e : Option (ValueEncoder V)) (fuel : Nat) (data : List Byte) :
    Except DecodeError (List (edge V) × List Byte) :=
  decodeEdgesWith (decodeEdge e fuel) data

/-- The Go function `DecodeTree`; `fuel` bounds the nesting depth of nodes. -/
def DecodeTree (e : Option (ValueEncoder V)) (fuel : Nat) (data : List Byte) :
    Except DecodeError (Tree V) :=
  match readBool data with
  | .error err => .error err
  | .ok (hasRoot, data) =>
    let rootResult : Except DecodeError (Option (Node V) × List Byte) :=
      if hasRoot then
        match decodeNode e fuel data with
        | .error err => .error err
        | .ok (n, data) => .ok (some n, data)
      else .ok (none, data)
    match rootResult with
    | .error err => .error err
    | .ok (root, data) =>
      match readUInt64 data with
      | .error err => .error err
      | .ok (size, _) => .ok ⟨root, int size⟩


/-! ## Structural views, well-formedness and depth -/

def leafNode.mapVal (f : Option V → Option V) (l : leafNode V) : leafNode V :=
  ⟨l.key, f l.val⟩

mutual
/-- The node with `f` applied to every leaf value. -/
def Node.mapVal (f : Option V → Option V) : Node V → Node V
  | .mk leaf pfx edges =>
    .mk (match leaf with
         | some l => some (l.mapVal f)
         | none => none) pfx (Node.mapValEdges f edges)
def Node.mapValEdges (f : Option V → Option V) : List (edge V) → List (edge V)
  | [] => []
  | ed :: rest => edge.mapVal f ed :: Node.mapValEdges f rest
def edge.mapVal (f : Option V → Option V) : edge V → edge V
  | .mk label (some n) => .mk label (some (Node.mapVal f n))
  | .mk label none => .mk label none
end

/-- The node with every leaf value replaced by `nil`. -/
def Node.eraseVals (n : Node V) : Node V := n.mapVal (fun _ => none)

/-- The tree with every leaf value replaced by `nil`. -/
def Tree.eraseVals (t : Tree V) : Tree V := ⟨t.root.map Node.eraseVals, t.size⟩

mutual
/-- Every slice of the node has a length that a Go `int` holds. -/
def Node.WF : Node V → Bool
  | .mk leaf pfx edges =>
    (match leaf with
     | some l => decide (l.key.length < 2 ^ 63)
     | none => true)
    && decide (pfx.length < 2 ^ 63) && decide (edges.length < 2 ^ 63) && Node.WFEdges edges
def Node.WFEdges : List (edge V) → Bool
  | [] => true
  | ed :: rest => edge.WF ed && Node.WFEdges rest
def edge.WF : edge V → Bool
  | .mk _ (some n) => Node.WF n
  | .mk _ none => true
end

/-- The tree is one that Go can hold: slice lengths and the element count are
in the range of `int`. -/
def Tree.WF (t : Tree V) : Bool :=
  (match t.root with
   | some n => n.WF
   | none => true)
  && decide (-(2 ^ 63) ≤ t.size) && decide (t.size < 2 ^ 63)

mutual
/-- The number of nodes on the longest path from the node downwards. -/
def Node.depth : Node V → Nat
  | .mk _ _ edges => Node.depthEdges edges + 1
def Node.depthEdges : List (edge V) → Nat
  | [] => 0
  | ed :: rest => max (edge.depth ed) (Node.depthEdges rest)
def edge.depth : edge V → Nat
  | .mk _ (some n) => Node.depth n
  | .mk _ none => 0
end

def Tree.depth (t : Tree V) : Nat :=
  match t.root with
  | some n => n.depth
  | none => 0

/-! ## The capability contract -/

/-- The capability only appends to the buffer it is given. -/
def AppendOnly (enc : ValueEncoder V) : Prop :=
  ∀ dst v, enc.Encode dst v = dst ++ enc.Encode [] v

/-- The capability reads back what it wrote and leaves the rest. -/
def SelfDelimiting (enc : ValueEncoder V) : Prop :=
  ∀ v rest, enc.Decode (enc.Encode [] v ++ rest) = .ok (v, rest)

/-- The optional capability is absent or append-only. -/
def AppendOnlyOpt (e : Option (ValueEncoder V)) : Prop :=
  ∀ enc, e = some enc → AppendOnly enc

/-- The optional capability is absent or append-only and self-delimiting. -/
def Consistent (e : Option (ValueEncoder V)) : Prop :=
  ∀ enc, e = some enc → AppendOnly enc ∧ SelfDelimiting enc

/-- What a decoder with capability `e` sees of a value written with `e`. -/
def seenVal (e : Option (ValueEncoder V)) (v : Option V) : Option V :=
  match e with
  | some _ => v
  | none => none

/-! ## The byte layout of spec §6, written from the grammar -/

/-- Grammar `Bool := Byte (1 = true)`. -/
def serBool (b : Bool) : List Byte := [if b then 1 else 0]

/-- Grammar `UInt64 := 8 raw bytes, big-endian`. -/
def serUInt64 (v : Nat) : List Byte :=
  (List.range 8).map (fun i => byte (v / 256 ^ (7 - i)))

/-- Grammar `Bytes := UInt64(length) Byte{length}`. -/
def serBytes (b : List Byte) : List Byte := serUInt64 b.length ++ b

/-- Grammar `Value`: delegated to the capability. -/
def serValue (e : Option (ValueEncoder V)) (v : Option V) : List Byte :=
  match e with
  | some enc => enc.Encode [] v
  | none => []

/-- Grammar `Leaf := Bytes(key) Bool(hasValue) [Value]`. -/
def serLeaf (e : Option (ValueEncoder V)) (l : leafNode V) : List Byte :=
  serBytes l.key ++ serBool e.isSome ++ serValue e l.val

mutual
/-- Grammar `Node := Bool(hasLeaf) [Leaf] Bytes(prefix) UInt64(count) Edge*`. -/
def serNode (e : Option (ValueEncoder V)) : Node V → List Byte
  | .mk leaf pfx edges =>
    (match leaf with
     | some l => serBool true ++ serLeaf e l
     | none => serBool false)
    ++ serBytes pfx ++ serUInt64 edges.length ++ serEdgeList e edges
/-- Grammar `Edge*`, in stored order. -/
def serEdgeList (e : Option (ValueEncoder V)) : List (edge V) → List Byte
  | [] => []
  | ed :: rest => serEdge e ed ++ serEdgeList e rest
/-- Grammar `Edge := Byte(label) Bool(hasNode) [Node]`. -/
def serEdge (e : Option (ValueEncoder V)) : edge V → List Byte
  | .mk label (some n) => [label] ++ serBool true ++ serNode e n
  | .mk label none => [label] ++ serBool false
end

/-- Grammar `Tree := Bool(hasRoot) [Node] UInt64(size)`. -/
def serTree (e : Option (ValueEncoder V)) (t : Tree V) : List Byte :=
  (match t.root with
   | some n => serBool true ++ serNode e n
   | none => serBool false)
  ++ serUInt64 (uint64 t.size)

/-! ## Concrete trees and a concrete capability -/

/-- The tree of `TestEncodeTree`: keys `foo`, `bar`, `foobar` with `nil` values. -/
def fooBarTree : Tree Byte :=
  ⟨some (.mk none []
    [.mk 98 (some (.mk (some ⟨[98, 97, 114], none⟩) [98, 97, 114] [])),
     .mk 102 (some (.mk (some ⟨[102, 111, 111], none⟩) [102, 111, 111]
       [.mk 98 (some (.mk (some ⟨[102, 111, 111, 98, 97, 114], none⟩) [98, 97, 114] []))]))]),
   3⟩

/-- A capability for byte values: `nil` is the byte `0`, a byte `b` is `1, b`. -/
def byteValue : ValueEncoder Byte where
  Encode := fun dst v =>
    match v with
    | none => dst ++ [0]
    | some b => dst ++ [1, b]
  Decode := fun src =>
    match src with
    | 0 :: rest => .ok (none, rest)
    | 1 :: b :: rest => .ok (some b, rest)
    | _ => .error .TruncatedInput

/-- A tree with the single key `a` stored at the root, with value `nil`. -/
def oneLeafTree : Tree Byte :=
  ⟨some (.mk (some ⟨[97], none⟩) [] []), 1⟩

/-- A tree with two keys and non-`nil` values, edges in the order `z`, `a`. -/
def valuedTree : Tree Byte :=
  ⟨some (.mk (some ⟨[], some 7⟩) []
    [.mk 122 (some (.mk (some ⟨[122], some 0⟩) [122] [])),
     .mk 97 (some (.mk (some ⟨[97], none⟩) [97] [])),
     .mk 5 none]),
   2⟩

/-- The edges `es` are what the edge decoder `de` reads, one after the other and
in this order, from `data`, leaving `rest`. -/
inductive ReadsEdges (de : List Byte → Except DecodeError (edge V × List Byte)) :
    List Byte → List (edge V) → List Byte → Prop where
  | done (data : List Byte) : ReadsEdges de data [] data
  | step (data mid rest : List Byte) (ed : edge V) (es : List (edge V)) :
      de data = .ok (ed, mid) → ReadsEdges de mid es rest → ReadsEdges de data (ed :: es) rest

/-- The big-endian value of eight bytes: the sum of `byte_i * 256^(7-i)`. -/
def beValue (bs : List Byte) : Nat :=
  ((List.range 8).map (fun i => (bs.getD i 0).val * 256 ^ (7 - i))).sum

/-! ## Building a tree (code outside `encoding.go`) -/

/-- Modelled from the spec: the empty tree built by `New` (declared outside
`src/`); spec §8 describes the tree with no entries as having no root and
element count 0. -/
def New : Tree V := ⟨none, 0⟩

/-- Modelled from the spec: the length of the longest common prefix of two byte
sequences (helper of the insertion, outside `src/`), as prefix compression in
the glossary of the spec needs it. -/
def longestPrefix : List Byte → List Byte → Nat
  | a :: k1, b :: k2 => if a = b then longestPrefix k1 k2 + 1 else 0
  | _, _ => 0

/-- Modelled from the spec: the child reached from a node by the edge with the
given label (`getEdge`, outside `src/`); spec §3: an edge is a single-byte
transition label plus an optional child node. -/
def Node.getEdge (n : Node V) (label : Byte) : Option (Node V) :=
  (n.edges.find? (fun ed => ed.label == label)).bind edge.node

/-- Modelled from the spec: adding an edge to an edge list (`addEdge`, outside
`src/`); spec §3: edges are kept sorted ascending by label byte. -/
def addEdge (es : List (edge V)) (e : edge V) : List (edge V) :=
  match es with
  | [] => [e]
  | x :: rest => if e.label ≤ x.label then e :: x :: rest else x :: addEdge rest e

/-- Modelled from the spec: replacing the child of the edge with the given label
(`replaceEdge`, outside `src/`). -/
def replaceEdge (es : List (edge V)) (label : Byte) (n : Node V) : List (edge V) :=
  es.map (fun ed => if ed.label = label then edge.mk label (some n) else ed)

/-- Modelled from the spec: insertion of key `k` (of which `search` is still to
be consumed) with value `v` below node `n` (the recursive insertion, outside
`src/`), following the data model of spec §3 and the glossary: a node's prefix
is the bytes consumed on the way from its parent, shared key prefixes are
stored once (a node is split where a new key leaves its prefix), edges stay
sorted by label, and a leaf stores the complete key.  The result is the new
node and whether an existing key was updated; `fuel` bounds the recursion and
`search.length + 1` suffices. -/
def insert : Nat → Node V → List Byte → List Byte → Option V → Node V × Bool
  | 0, n, _, _, _ => (n, false)
  | fuel + 1, n, k, search, v =>
    match search with
    | [] => (.mk (some ⟨k, v⟩) n.pfx n.edges, n.leaf.isSome)
    | c :: _ =>
      match n.getEdge c with
      | none =>
        (.mk n.leaf n.pfx (addEdge n.edges (.mk c (some (.mk (some ⟨k, v⟩) search [])))), false)
      | some child =>
        let commonPrefix := longestPrefix search child.pfx
        if commonPrefix = child.pfx.length then
          let r := insert fuel child k (search.drop commonPrefix) v
          (.mk n.leaf n.pfx (replaceEdge n.edges c r.1), r.2)
        else
          let modChild : Node V := .mk child.leaf (child.pfx.drop commonPrefix) child.edges
          let below : List (edge V) := [.mk ((child.pfx.drop commonPrefix).headD 0) (some modChild)]
          let search1 := search.drop commonPrefix
          let splitNode : Node V :=
            match search1 with
            | [] => .mk (some ⟨k, v⟩) (search.take commonPrefix) below
            | c1 :: _ =>
              .mk none (search.take commonPrefix)
                (addEdge below (.mk c1 (some (.mk (some ⟨k, v⟩) search1 []))))
          (.mk n.leaf n.pfx (replaceEdge n.edges c splitNode), false)

/-- Modelled from the spec: `Insert` on a tree (outside `src/`); the element
count is the number of distinct keys stored (spec §3), so it grows by one
unless the key was already present. -/
def Insert (t : Tree V) (k : List Byte) (v : Option V) : Tree V :=
  let root : Node V := t.root.getD (.mk none [] [])
  let r := insert (k.length + 1) root k k v
  ⟨some r.1, if r.2 then t.size else t.size + 1⟩

/-- The tree of the concrete scenario of spec §8 and of `TestEncodeTree`:
`foo`, `bar`, `foobar` inserted with `nil` values into the empty tree. -/
def scenarioTree : Tree Byte :=
  Insert (Insert (Insert New [102, 111, 111] none) [98, 97, 114] none)
    [102, 111, 111, 98, 97, 114] none

mutual
/-- The labels of all edges in the subtree of a node. -/
def Node.labels : Node V → List Byte
  | .mk _ _ edges => Node.labelsEdges edges
def Node.labelsEdges : List (edge V) → List Byte
  | [] => []
  | ed :: rest => edge.labels ed ++ Node.labelsEdges rest
def edge.labels : edge V → List Byte
  | .mk label (some n) => label :: Node.labels n
  | .mk label none => [label]
end

/-! ## Primitive codec: facts -/

theorem serUInt64_eq (v : Nat) :
    serUInt64 v = [byte (v >>> 56), byte (v >>> 48), byte (v >>> 40), byte (v >>> 32),
      byte (v >>> 24), byte (v >>> 16), byte (v >>> 8), byte v] := by
  simp [serUInt64, List.range, List.range.loop, Nat.shiftRight_eq_div_pow]

theorem putUInt64_eq (dst : List Byte) (v : Nat) : putUInt64 dst v = dst ++ serUInt64 v := by
  rw [serUInt64_eq]; rfl

theorem serUInt64_mod (v : Nat) : serUInt64 (v % 2 ^ 64) = serUInt64 v := by
  simp only [serUInt64_eq, byte, Nat.shiftRight_eq_div_pow]
  simp only [List.cons.injEq, Fin.mk.injEq, and_true]
  refine ⟨?_, ?_, ?_, ?_, ?_, ?_, ?_, ?_⟩ <;> omega

theorem serUInt64_length (v : Nat) : (serUInt64 v).length = 8 := by
  simp [serUInt64]

theorem putBool_eq (dst : List Byte) (b : Bool) : putBool dst b = dst ++ serBool b := rfl

theorem putBytes_eq (dst b : List Byte) : putBytes dst b = dst ++ serBytes b := by
  simp only [putBytes, serBytes, putUInt64_eq, serUInt64_mod, List.append_assoc]

theorem readUInt64_short (src : List Byte) (h : src.length < 8) :
    readUInt64 src = .error .TruncatedInput := by
  match src with
  | [] => rfl
  | [_] => rfl
  | [_, _] => rfl
  | [_, _, _] => rfl
  | [_, _, _, _] => rfl
  | [_, _, _, _, _] => rfl
  | [_, _, _, _, _, _] => rfl
  | [_, _, _, _, _, _, _] => rfl
  | _ :: _ :: _ :: _ :: _ :: _ :: _ :: _ :: _ => simp at h; omega

theorem readUInt64_ser (v : Nat) (hv : v < 2 ^ 64) (rest : List Byte) :
    readUInt64 (serUInt64 v ++ rest) = .ok (v, rest) := by
  simp only [serUInt64_eq, readUInt64, byte, Nat.shiftRight_eq_div_pow, List.cons_append,
    List.nil_append]
  congr 2
  omega

theorem readBool_ser (b : Bool) (rest : List Byte) :
    readBool (serBool b ++ rest) = .ok (b, rest) := by
  cases b <;> simp [serBool, readBool]

theorem readBytes_ser (b : List Byte) (hb : b.length < 2 ^ 64) (rest : List Byte) :
    readBytes (serBytes b ++ rest) = .ok (b, rest) := by
  simp only [readBytes, serBytes, List.append_assoc, readUInt64_ser _ hb]
  by_cases h0 : b.length > 0
  · simp [h0]
  · have : b = [] := List.length_eq_zero.mp (by omega)
    simp [this]

/-! ## The encoder writes the layout -/

theorem encodeLeafNode_eq (e : Option (ValueEncoder V)) (he : AppendOnlyOpt e) (dst : List Byte)
    (l : leafNode V) : encodeLeafNode e dst l = dst ++ serLeaf e l := by
  cases e with
  | none => simp [encodeLeafNode, serLeaf, serValue, putBytes_eq, putBool_eq]
  | some enc =>
    simp only [encodeLeafNode, serLeaf, serValue, putBytes_eq, putBool_eq, Option.isSome_some,
      List.append_assoc]
    rw [he enc rfl]
    simp

mutual
theorem encodeNode_eq (e : Option (ValueEncoder V)) (he : AppendOnlyOpt e) :
    ∀ (n : Node V) (dst : List Byte), encodeNode e dst n = dst ++ serNode e n
  | .mk leaf pfx edges, dst => by
    cases leaf with
    | none =>
      simp only [encodeNode, serNode, putBool_eq, putBytes_eq, putUInt64_eq, serUInt64_mod,
        encodeEdges_loop_eq e he edges, List.append_assoc]
    | some l =>
      simp only [encodeNode, serNode, putBool_eq, putBytes_eq, putUInt64_eq, serUInt64_mod,
        encodeEdges_loop_eq e he edges, encodeLeafNode_eq e he, List.append_assoc]
theorem encodeEdges_loop_eq (e : Option (ValueEncoder V)) (he : AppendOnlyOpt e) :
    ∀ (es : List (edge V)) (dst : List Byte), encodeEdges.loop e dst es = dst ++ serEdgeList e es
  | [], dst => by simp [encodeEdges.loop, serEdgeList]
  | ed :: rest, dst => by
    simp only [encodeEdges.loop, serEdgeList, encodeEdge_eq e he ed,
      encodeEdges_loop_eq e he rest, List.append_assoc]
theorem encodeEdge_eq (e : Option (ValueEncoder V)) (he : AppendOnlyOpt e) :
    ∀ (ed : edge V) (dst : List Byte), encodeEdge e dst ed = dst ++ serEdge e ed
  | .mk label (some n), dst => by
    simp only [encodeEdge, serEdge, putBool_eq, encodeNode_eq e he n, List.append_assoc]
  | .mk label none, dst => by
    simp only [encodeEdge, serEdge, putBool_eq, List.append_assoc]
end

theorem encodeEdges_eq (e : Option (ValueEncoder V)) (he : AppendOnlyOpt e) (dst : List Byte)
    (es : List (edge V)) :
    encodeEdges e dst es = dst ++ serUInt64 es.length ++ serEdgeList e es := by
  simp only [encodeEdges, putUInt64_eq, serUInt64_mod, encodeEdges_loop_eq e he]

theorem EncodeTree_eq (e : Option (ValueEncoder V)) (he : AppendOnlyOpt e) (t : Tree V) :
    EncodeTree e t = serTree e t := by
  rcases t with ⟨root, size⟩
  cases root with
  | none => simp only [EncodeTree, serTree, putBool_eq, putUInt64_eq, List.nil_append]
  | some n =>
    simp only [EncodeTree, serTree, putBool_eq, putUInt64_eq, encodeNode_eq e he n,
      List.nil_append, List.append_assoc]

theorem appendOnlyOpt_none : AppendOnlyOpt (none : Option (ValueEncoder V)) := by
  intro enc h; cases h

theorem Consistent.appendOnly {e : Option (ValueEncoder V)} (h : Consistent e) :
    AppendOnlyOpt e := fun enc he => (h enc he).1

theorem consistent_none : Consistent (none : Option (ValueEncoder V)) := by
  intro enc h; cases h

/-! ## Round trip -/

theorem int_of_lt (v : Nat) (h : v < 2 ^ 63) : int v = (v : Int) := by
  have h1 : v % 2 ^ 64 = v := Nat.mod_eq_of_lt (by omega)
  simp only [int, h1, h, if_true]

theorem int_uint64 (i : Int) (h1 : -(2 ^ 63) ≤ i) (h2 : i < 2 ^ 63) : int (uint64 i) = i := by
  unfold int uint64
  have hm : ((i % 2 ^ 64).toNat % 2 ^ 64 : Nat) = (i % 2 ^ 64).toNat := by
    apply Nat.mod_eq_of_lt
    omega
  rw [hm]
  split <;> omega

theorem uint64_lt (i : Int) : uint64 i < 2 ^ 64 := by
  unfold uint64
  omega

theorem decodeLeafNode_ser (e : Option (ValueEncoder V)) (he : Consistent e) (l : leafNode V)
    (hl : l.key.length < 2 ^ 63) (rest : List Byte) :
    decodeLeafNode e (serLeaf e l ++ rest) = .ok (l.mapVal (seenVal e), rest) := by
  have hk : l.key.length < 2 ^ 64 := by omega
  cases e with
  | none =>
    simp only [decodeLeafNode, serLeaf, serValue, List.append_assoc, readBytes_ser _ hk,
      readBool_ser, Option.isSome_none, List.append_nil, leafNode.mapVal, seenVal]
  | some enc =>
    have hsd : ∀ v rest, enc.Decode (enc.Encode [] v ++ rest) = .ok (v, rest) := (he enc rfl).2
    simp only [decodeLeafNode, serLeaf, serValue, List.append_assoc, readBytes_ser _ hk,
      readBool_ser, Option.isSome_some, hsd, leafNode.mapVal, seenVal]

mutual
theorem decodeNode_ser (e : Option (ValueEncoder V)) (he : Consistent e) :
    ∀ (n : Node V) (fuel : Nat) (rest : List Byte), n.WF = true → n.depth ≤ fuel →
      decodeNode e fuel (serNode e n ++ rest) = .ok (n.mapVal (seenVal e), rest)
  | .mk leaf pfx edges, fuel, rest, hwf, hd => by
    simp only [Node.WF, Bool.and_eq_true, decide_eq_true_eq] at hwf
    obtain ⟨⟨⟨hleaf, hpfx⟩, hlen⟩, hes⟩ := hwf
    simp only [Node.depth] at hd
    obtain ⟨fuel, rfl⟩ : ∃ k, fuel = k + 1 := ⟨fuel - 1, by omega⟩
    have hde : Node.depthEdges edges ≤ fuel := by omega
    have hp : pfx.length < 2 ^ 64 := by omega
    have hloop := decodeEdges_loop_ser e he edges fuel [] rest hes hde
    have hedges : decodeEdgesWith (decodeEdgeWith (decodeNode e fuel))
        (serUInt64 edges.length ++ (serEdgeList e edges ++ rest))
        = .ok (Node.mapValEdges (seenVal e) edges, rest) := by
      simp only [decodeEdgesWith, readUInt64_ser _ (show edges.length < 2 ^ 64 by omega)]
      by_cases h0 : edges.length > 0
      · simp only [h0, if_true, int_of_lt _ hlen, Int.toNat_ofNat, hloop, List.nil_append]
      · have : edges = [] := List.length_eq_zero.mp (by omega)
        subst this
        simp [serEdgeList, Node.mapValEdges]
    cases leaf with
    | none =>
      simp only [decodeNode, serNode, List.append_assoc, readBool_ser, readBytes_ser _ hp,
        hedges, Node.mapVal, Bool.false_eq_true, if_false]
    | some l =>
      simp only [decide_eq_true_eq] at hleaf
      simp only [decodeNode, serNode, List.append_assoc, readBool_ser, readBytes_ser _ hp,
        hedges, Node.mapVal, decodeLeafNode_ser e he l hleaf, if_true]
theorem decodeEdges_loop_ser (e : Option (ValueEncoder V)) (he : Consistent e) :
    ∀ (es : List (edge V)) (fuel : Nat) (acc : List (edge V)) (rest : List Byte),
      Node.WFEdges es = true → Node.depthEdges es ≤ fuel →
      decodeEdges.loop (decodeEdgeWith (decodeNode e fuel)) es.length acc
        (serEdgeList e es ++ rest) = .ok (acc ++ Node.mapValEdges (seenVal e) es, rest)
  | [], fuel, acc, rest, _, _ => by
    simp [decodeEdges.loop, serEdgeList, Node.mapValEdges]
  | ed :: es, fuel, acc, rest, hwf, hd => by
    simp only [Node.WFEdges, Bool.and_eq_true] at hwf
    simp only [Node.depthEdges] at hd
    have h1 := decodeEdge_ser e he ed fuel (serEdgeList e es ++ rest) hwf.1 (by omega)
    have h2 := decodeEdges_loop_ser e he es fuel (acc ++ [edge.mapVal (seenVal e) ed]) rest
      hwf.2 (by omega)
    simp only [List.length_cons, decodeEdges.loop, serEdgeList, List.append_assoc, h1, h2,
      Node.mapValEdges, List.singleton_append]
theorem decodeEdge_ser (e : Option (ValueEncoder V)) (he : Consistent e) :
    ∀ (ed : edge V) (fuel : Nat) (rest : List Byte), edge.WF ed = true → edge.depth ed ≤ fuel →
      decodeEdgeWith (decodeNode e fuel) (serEdge e ed ++ rest)
        = .ok (edge.mapVal (seenVal e) ed, rest)
  | .mk label (some n), fuel, rest, hwf, hd => by
    simp only [edge.WF] at hwf
    simp only [edge.depth] at hd
    simp only [serEdge, List.append_assoc, List.singleton_append, List.cons_append,
      List.nil_append, decodeEdgeWith, readBool_ser, if_true, decodeNode_ser e he n fuel rest hwf hd, edge.mapVal]
  | .mk label none, fuel, rest, _, _ => by
    simp [serEdge, decodeEdgeWith, readBool_ser, edge.mapVal]
end


mutual
theorem mapVal_node_id : ∀ (n : Node V), n.mapVal (fun v => v) = n
  | .mk leaf pfx edges => by
    cases leaf with
    | none => simp only [Node.mapVal, mapVal_edges_id edges]
    | some l => simp only [Node.mapVal, mapVal_edges_id edges, leafNode.mapVal]
theorem mapVal_edges_id : ∀ (es : List (edge V)), Node.mapValEdges (fun v => v) es = es
  | [] => by simp only [Node.mapValEdges]
  | ed :: rest => by
    simp only [Node.mapValEdges, mapVal_edge_id ed, mapVal_edges_id rest]
theorem mapVal_edge_id : ∀ (ed : edge V), edge.mapVal (fun v => v) ed = ed
  | .mk label (some n) => by simp only [edge.mapVal, mapVal_node_id n]
  | .mk label none => by simp only [edge.mapVal]
end

theorem DecodeTree_ser (e : Option (ValueEncoder V)) (he : Consistent e) (t : Tree V)
    (hwf : t.WF = true) (fuel : Nat) (hf : t.depth ≤ fuel) (extra : List Byte) :
    DecodeTree e fuel (serTree e t ++ extra)
      = .ok ⟨t.root.map (Node.mapVal (seenVal e)), t.size⟩ := by
  rcases t with ⟨root, size⟩
  simp only [Tree.WF, Bool.and_eq_true, decide_eq_true_eq] at hwf
  obtain ⟨⟨hroot, hlo⟩, hhi⟩ := hwf
  cases root with
  | none =>
    simp only [DecodeTree, serTree, List.append_assoc, readBool_ser, Bool.false_eq_true,
      if_false, readUInt64_ser _ (uint64_lt size), int_uint64 size hlo hhi, Option.map_none']
  | some n =>
    simp only [Tree.depth] at hf
    simp only [DecodeTree, serTree, List.append_assoc, readBool_ser, if_true,
      decodeNode_ser e he n fuel _ hroot hf,
      readUInt64_ser _ (uint64_lt size), int_uint64 size hlo hhi, Option.map_some']

theorem byteValue_appendOnly : AppendOnly byteValue := by
  intro dst v
  cases v <;> simp [byteValue]

theorem byteValue_selfDelimiting : SelfDelimiting byteValue := by
  intro v rest
  cases v <;> simp [byteValue]


/-! ## More fuel never changes a result -/

theorem decodeEdgeWith_mono (dn dn1 : List Byte → Except DecodeError (Node V × List Byte))
    (h : ∀ d r, dn d = .ok r → dn1 d = .ok r) (data : List Byte) (r : edge V × List Byte)
    (hr : decodeEdgeWith dn data = .ok r) : decodeEdgeWith dn1 data = .ok r := by
  cases data with
  | nil => simp [decodeEdgeWith] at hr
  | cons label data =>
    simp only [decodeEdgeWith] at hr ⊢
    cases hb : readBool data with
    | error err => simp [hb] at hr
    | ok v =>
      obtain ⟨hasNode, d1⟩ := v
      simp only [hb] at hr ⊢
      cases hasNode with
      | false => simpa using hr
      | true =>
        simp only [if_true] at hr ⊢
        cases hn : dn d1 with
        | error err => simp [hn] at hr
        | ok w =>
          rw [h d1 w hn]
          simpa [hn] using hr

theorem decodeEdges_loop_mono (de de1 : List Byte → Except DecodeError (edge V × List Byte))
    (h : ∀ d r, de d = .ok r → de1 d = .ok r) :
    ∀ (k : Nat) (acc : List (edge V)) (data : List Byte) (r : List (edge V) × List Byte),
      decodeEdges.loop de k acc data = .ok r → decodeEdges.loop de1 k acc data = .ok r
  | 0, acc, data, r, hr => by simpa [decodeEdges.loop] using hr
  | k + 1, acc, data, r, hr => by
    simp only [decodeEdges.loop] at hr ⊢
    cases hd : de data with
    | error err => simp [hd] at hr
    | ok w =>
      obtain ⟨ed, d1⟩ := w
      rw [h data _ hd]
      simp only [hd] at hr
      exact decodeEdges_loop_mono de de1 h k _ d1 r hr

theorem decodeEdgesWith_mono (de de1 : List Byte → Except DecodeError (edge V × List Byte))
    (h : ∀ d r, de d = .ok r → de1 d = .ok r) (data : List Byte)
    (r : List (edge V) × List Byte) (hr : decodeEdgesWith de data = .ok r) :
    decodeEdgesWith de1 data = .ok r := by
  simp only [decodeEdgesWith] at hr ⊢
  cases hl : readUInt64 data with
  | error err => simp [hl] at hr
  | ok w =>
    obtain ⟨l, d1⟩ := w
    simp only [hl] at hr ⊢
    by_cases h0 : l > 0
    · simp only [h0, if_true] at hr ⊢
      exact decodeEdges_loop_mono de de1 h _ _ _ _ hr
    · simpa [h0] using hr

theorem decodeNode_succ (e : Option (ValueEncoder V)) :
    ∀ (fuel : Nat) (data : List Byte) (r : Node V × List Byte),
      decodeNode e fuel data = .ok r → decodeNode e (fuel + 1) data = .ok r
  | 0, data, r, hr => by simp [decodeNode] at hr
  | fuel + 1, data, r, hr => by
    have ih := decodeNode_succ e fuel
    rw [decodeNode] at hr ⊢
    cases hb : readBool data with
    | error err => simp [hb] at hr
    | ok v =>
      obtain ⟨hasLeaf, d1⟩ := v
      simp only [hb] at hr ⊢
      split at hr
      · simp at hr
      · rename_i leaf d2 hleaf
        cases hp : readBytes d2 with
        | error err => simp [hp] at hr
        | ok w =>
          obtain ⟨pfx, d3⟩ := w
          simp only [hp] at hr ⊢
          cases hes : decodeEdgesWith (decodeEdgeWith (decodeNode e fuel)) d3 with
          | error err => simp [hes] at hr
          | ok es =>
            have := decodeEdgesWith_mono _ (decodeEdgeWith (decodeNode e (fuel + 1)))
              (fun d r => decodeEdgeWith_mono _ _ ih d r) d3 es hes
            rw [this]
            simpa [hes] using hr

theorem decodeNode_mono (e : Option (ValueEncoder V)) (fuel fuel1 : Nat) (h : fuel ≤ fuel1)
    (data : List Byte) (r : Node V × List Byte) (hr : decodeNode e fuel data = .ok r) :
    decodeNode e fuel1 data = .ok r := by
  induction h with
  | refl => exact hr
  | step _ ih => exact decodeNode_succ e _ data r ih

theorem DecodeTree_mono (e : Option (ValueEncoder V)) (fuel fuel1 : Nat) (h : fuel ≤ fuel1)
    (data : List Byte) (t : Tree V) (hr : DecodeTree e fuel data = .ok t) :
    DecodeTree e fuel1 data = .ok t := by
  simp only [DecodeTree] at hr ⊢
  cases hb : readBool data with
  | error err => simp [hb] at hr
  | ok v =>
    obtain ⟨hasRoot, d1⟩ := v
    simp only [hb] at hr ⊢
    cases hasRoot with
    | false => simpa using hr
    | true =>
      simp only [if_true] at hr ⊢
      cases hn : decodeNode e fuel d1 with
      | error err => simp [hn] at hr
      | ok w =>
        rw [decodeNode_mono e fuel fuel1 h d1 w hn]
        simpa [hn] using hr

/-! ## Truncated input -/

theorem append_split {α : Type} (p q x1 x2 : List α) (h : p ++ q = x1 ++ x2) :
    (∃ q1, q1 ≠ [] ∧ p ++ q1 = x1) ∨ (∃ p2, p = x1 ++ p2 ∧ p2 ++ q = x2) := by
  rcases List.append_eq_append_iff.mp h with ⟨a, h1, h2⟩ | ⟨c, h1, h2⟩
  · by_cases ha : a = []
    · subst ha
      right
      refine ⟨[], by simpa using h1.symm, by simpa using h2⟩
    · left
      exact ⟨a, ha, h1.symm⟩
  · right
    exact ⟨c, h1, h2.symm⟩

theorem readUInt64_trunc (v : Nat) (p q : List Byte) (h : p ++ q = serUInt64 v) (hq : q ≠ []) :
    readUInt64 p = .error .TruncatedInput := by
  apply readUInt64_short
  have hlen := congrArg List.length h
  have hq1 : 0 < q.length := List.length_pos.mpr hq
  simp only [List.length_append, serUInt64_length] at hlen
  omega

theorem readBool_trunc (b : Bool) (p q : List Byte) (h : p ++ q = serBool b) (hq : q ≠ []) :
    readBool p = .error .TruncatedInput := by
  have hlen := congrArg List.length h
  have hq1 : 0 < q.length := List.length_pos.mpr hq
  simp only [List.length_append, serBool, List.length_singleton] at hlen
  have : p = [] := List.length_eq_zero.mp (by omega)
  subst this
  rfl

theorem readBytes_trunc (b : List Byte) (hb : b.length < 2 ^ 64) (p q : List Byte)
    (h : p ++ q = serBytes b) (hq : q ≠ []) : readBytes p = .error .TruncatedInput := by
  rcases append_split p q _ _ h with ⟨q1, hq1, h1⟩ | ⟨p2, h1, h2⟩
  · simp only [readBytes, readUInt64_trunc _ p q1 h1 hq1]
  · subst h1
    have hq1 : 0 < q.length := List.length_pos.mpr hq
    have hlen := congrArg List.length h2
    simp only [List.length_append] at hlen
    have h0 : b.length > 0 := by omega
    have h3 : ¬ b.length ≤ p2.length := by omega
    simp only [readBytes, readUInt64_ser _ hb, h0, h3, if_true, if_false]

theorem decodeLeafNode_trunc (l : leafNode V) (hl : l.key.length < 2 ^ 63) (p q : List Byte)
    (h : p ++ q = serLeaf none l) (hq : q ≠ []) :
    decodeLeafNode (none : Option (ValueEncoder V)) p = .error .TruncatedInput := by
  have hk : l.key.length < 2 ^ 64 := by omega
  simp only [serLeaf, serValue, Option.isSome_none, List.append_nil] at h
  rcases append_split p q _ _ h with ⟨q1, hq1, h1⟩ | ⟨p2, h1, h2⟩
  · simp only [decodeLeafNode, readBytes_trunc _ hk p q1 h1 hq1]
  · subst h1
    simp only [decodeLeafNode, readBytes_ser _ hk, readBool_trunc _ p2 q h2 hq]

/-- Where decoding stops on a truncated `Bytes(prefix) UInt64(count) Edge*`. -/
theorem node_tail_trunc (de : List Byte → Except DecodeError (edge V × List Byte))
    (pfx : List Byte) (edges : List (edge V)) (hpfx : pfx.length < 2 ^ 63)
    (hlen : edges.length < 2 ^ 63) (p q : List Byte)
    (h : p ++ q = serBytes pfx ++ (serUInt64 edges.length ++ serEdgeList none edges))
    (hq : q ≠ [])
    (hE : ∀ p1, p1 ++ q = serEdgeList none edges →
      decodeEdges.loop de edges.length [] p1 = .error .TruncatedInput) :
    readBytes p = .error .TruncatedInput
      ∨ ∃ p3, readBytes p = .ok (pfx, p3) ∧ decodeEdgesWith de p3 = .error .TruncatedInput := by
  have hp : pfx.length < 2 ^ 64 := by omega
  have hl : edges.length < 2 ^ 64 := by omega
  rcases append_split p q _ _ h with ⟨q1, hq1, h1⟩ | ⟨p2, h1, h2⟩
  · exact Or.inl (readBytes_trunc _ hp p q1 h1 hq1)
  · subst h1
    refine Or.inr ⟨p2, readBytes_ser _ hp p2, ?_⟩
    rcases append_split p2 q _ _ h2 with ⟨q2, hq2, h3⟩ | ⟨p4, h3, h4⟩
    · simp only [decodeEdgesWith, readUInt64_trunc _ p2 q2 h3 hq2]
    · subst h3
      have h0 : edges.length > 0 := by
        cases edges with
        | nil =>
          simp only [serEdgeList, List.append_eq_nil] at h4
          exact absurd h4.2 hq
        | cons ed es => simp
      simp only [decodeEdgesWith, readUInt64_ser _ hl, h0, if_true, int_of_lt _ hlen,
        Int.toNat_ofNat, hE p4 h4]

mutual
theorem decodeNode_trunc :
    ∀ (n : Node V) (fuel : Nat) (p q : List Byte), n.WF = true → n.depth ≤ fuel →
      p ++ q = serNode none n → q ≠ [] →
      decodeNode (none : Option (ValueEncoder V)) fuel p = .error .TruncatedInput
  | .mk leaf pfx edges, fuel, p, q, hwf, hd, h, hq => by
    simp only [Node.WF, Bool.and_eq_true, decide_eq_true_eq] at hwf
    obtain ⟨⟨⟨hleaf, hpfx⟩, hlen⟩, hes⟩ := hwf
    simp only [Node.depth] at hd
    obtain ⟨fuel, rfl⟩ : ∃ k, fuel = k + 1 := ⟨fuel - 1, by omega⟩
    have hde : Node.depthEdges edges ≤ fuel := by omega
    have htail : ∀ p2, p2 ++ q = serBytes pfx ++ (serUInt64 edges.length ++ serEdgeList none edges) →
        readBytes p2 = .error .TruncatedInput
          ∨ ∃ p3, readBytes p2 = .ok (pfx, p3)
              ∧ decodeEdgesWith (decodeEdgeWith (decodeNode (none : Option (ValueEncoder V)) fuel)) p3
                  = .error .TruncatedInput :=
      fun p2 h2 => node_tail_trunc _ pfx edges hpfx hlen p2 q h2 hq
        (fun p1 h1 => decodeEdges_loop_trunc edges fuel [] p1 q hes hde h1 hq)
    cases leaf with
    | none =>
      simp only [serNode, List.append_assoc] at h
      rcases append_split p q _ _ h with ⟨q1, hq1, h1⟩ | ⟨p2, h1, h2⟩
      · simp only [decodeNode, readBool_trunc _ p q1 h1 hq1]
      · subst h1
        rcases htail p2 h2 with ht | ⟨p3, ht1, ht2⟩
        · simp only [decodeNode, readBool_ser, Bool.false_eq_true, if_false, ht]
        · simp only [decodeNode, readBool_ser, Bool.false_eq_true, if_false, ht1, ht2]
    | some l =>
      simp only [decide_eq_true_eq] at hleaf
      simp only [serNode, List.append_assoc] at h
      rcases append_split p q _ _ h with ⟨q1, hq1, h1⟩ | ⟨p2, h1, h2⟩
      · simp only [decodeNode, readBool_trunc _ p q1 h1 hq1]
      · subst h1
        rcases append_split p2 q _ _ h2 with ⟨q2, hq2, h3⟩ | ⟨p4, h3, h4⟩
        · simp only [decodeNode, readBool_ser, if_true, decodeLeafNode_trunc l hleaf p2 q2 h3 hq2]
        · subst h3
          rcases htail p4 h4 with ht | ⟨p3, ht1, ht2⟩
          · simp only [decodeNode, readBool_ser, if_true,
              decodeLeafNode_ser none consistent_none l hleaf, ht]
          · simp only [decodeNode, readBool_ser, if_true,
              decodeLeafNode_ser none consistent_none l hleaf, ht1, ht2]
theorem decodeEdges_loop_trunc :
    ∀ (es : List (edge V)) (fuel : Nat) (acc : List (edge V)) (p q : List Byte),
      Node.WFEdges es = true → Node.depthEdges es ≤ fuel →
      p ++ q = serEdgeList none es → q ≠ [] →
      decodeEdges.loop (decodeEdgeWith (decodeNode (none : Option (ValueEncoder V)) fuel))
        es.length acc p = .error .TruncatedInput
  | [], fuel, acc, p, q, _, _, h, hq => by
    simp only [serEdgeList, List.append_eq_nil] at h
    exact absurd h.2 hq
  | ed :: es, fuel, acc, p, q, hwf, hd, h, hq => by
    simp only [Node.WFEdges, Bool.and_eq_true] at hwf
    simp only [Node.depthEdges] at hd
    simp only [serEdgeList] at h
    rcases append_split p q _ _ h with ⟨q1, hq1, h1⟩ | ⟨p2, h1, h2⟩
    · simp only [List.length_cons, decodeEdges.loop,
        decodeEdge_trunc ed fuel p q1 hwf.1 (by omega) h1 hq1]
    · subst h1
      simp only [List.length_cons, decodeEdges.loop,
        decodeEdge_ser none consistent_none ed fuel p2 hwf.1 (by omega),
        decodeEdges_loop_trunc es fuel _ p2 q hwf.2 (by omega) h2 hq]
theorem decodeEdge_trunc :
    ∀ (ed : edge V) (fuel : Nat) (p q : List Byte), edge.WF ed = true → edge.depth ed ≤ fuel →
      p ++ q = serEdge none ed → q ≠ [] →
      decodeEdgeWith (decodeNode (none : Option (ValueEncoder V)) fuel) p
        = .error .TruncatedInput
  | .mk label (some n), fuel, p, q, hwf, hd, h, hq => by
    simp only [edge.WF] at hwf
    simp only [edge.depth] at hd
    cases p with
    | nil => rfl
    | cons b p1 =>
      simp only [serEdge, List.append_assoc, List.singleton_append, List.cons_append,
        List.nil_append, List.cons.injEq] at h
      obtain ⟨rfl, h⟩ := h
      rcases append_split p1 q _ _ h with ⟨q1, hq1, h1⟩ | ⟨p2, h1, h2⟩
      · simp only [decodeEdgeWith, readBool_trunc _ p1 q1 h1 hq1]
      · subst h1
        simp only [decodeEdgeWith, readBool_ser, if_true, decodeNode_trunc n fuel p2 q hwf hd h2 hq]
  | .mk label none, fuel, p, q, _, _, h, hq => by
    cases p with
    | nil => rfl
    | cons b p1 =>
      simp only [serEdge, List.singleton_append, List.cons_append, List.nil_append,
        List.cons.injEq] at h
      obtain ⟨rfl, h⟩ := h
      simp only [decodeEdgeWith, readBool_trunc _ p1 q h hq]
end

theorem DecodeTree_trunc (t : Tree V) (hwf : t.WF = true) (fuel : Nat) (hf : t.depth ≤ fuel)
    (p q : List Byte) (h : p ++ q = serTree none t) (hq : q ≠ []) :
    DecodeTree (none : Option (ValueEncoder V)) fuel p = .error .TruncatedInput := by
  rcases t with ⟨root, size⟩
  simp only [Tree.WF, Bool.and_eq_true, decide_eq_true_eq] at hwf
  obtain ⟨⟨hroot, hlo⟩, hhi⟩ := hwf
  cases root with
  | none =>
    simp only [serTree] at h
    rcases append_split p q _ _ h with ⟨q1, hq1, h1⟩ | ⟨p2, h1, h2⟩
    · simp only [DecodeTree, readBool_trunc _ p q1 h1 hq1]
    · subst h1
      simp only [DecodeTree, readBool_ser, Bool.false_eq_true, if_false,
        readUInt64_trunc _ p2 q h2 hq]
  | some n =>
    simp only [Tree.depth] at hf
    simp only [serTree, List.append_assoc] at h
    rcases append_split p q _ _ h with ⟨q1, hq1, h1⟩ | ⟨p2, h1, h2⟩
    · simp only [DecodeTree, readBool_trunc _ p q1 h1 hq1]
    · subst h1
      rcases append_split p2 q _ _ h2 with ⟨q2, hq2, h3⟩ | ⟨p4, h3, h4⟩
      · simp only [DecodeTree, readBool_ser, if_true, decodeNode_trunc n fuel p2 q2 hroot hf h3 hq2]
      · subst h3
        simp only [DecodeTree, readBool_ser, if_true,
          decodeNode_ser none consistent_none n fuel _ hroot hf, readUInt64_trunc _ p4 q h4 hq]

/-! ## The edge loop -/

theorem readsEdges_snoc (de : List Byte → Except DecodeError (edge V × List Byte))
    (data mid rest : List Byte) (es : List (edge V)) (ed : edge V)
    (h1 : ReadsEdges de data es mid) (h2 : de mid = .ok (ed, rest)) :
    ReadsEdges de data (es ++ [ed]) rest := by
  induction h1 with
  | done d => exact .step d rest rest ed [] h2 (.done rest)
  | step d m r e0 es0 hd _ ih => exact .step d m rest e0 (es0 ++ [ed]) hd (ih h2)

theorem decodeEdges_loop_reads (de : List Byte → Except DecodeError (edge V × List Byte))
    (start : List Byte) :
    ∀ (k : Nat) (acc : List (edge V)) (data : List Byte) (es : List (edge V))
      (rest : List Byte), ReadsEdges de start acc data →
      decodeEdges.loop de k acc data = .ok (es, rest) →
      es.length = acc.length + k ∧ ReadsEdges de start es rest
  | 0, acc, data, es, rest, hacc, h => by
    simp only [decodeEdges.loop, Except.ok.injEq, Prod.mk.injEq] at h
    obtain ⟨rfl, rfl⟩ := h
    exact ⟨rfl, hacc⟩
  | k + 1, acc, data, es, rest, hacc, h => by
    simp only [decodeEdges.loop] at h
    cases hd : de data with
    | error err => simp [hd] at h
    | ok w =>
      obtain ⟨ed, d1⟩ := w
      simp only [hd] at h
      have := decodeEdges_loop_reads de start k (acc ++ [ed]) d1 es rest
        (readsEdges_snoc de start data d1 acc ed hacc hd) h
      refine ⟨?_, this.2⟩
      have h1 := this.1
      simp only [List.length_append, List.length_singleton] at h1
      omega

theorem appendOnlyOpt_some (enc : ValueEncoder V) (h : AppendOnly enc) :
    AppendOnlyOpt (some enc) := by
  intro enc1 h1
  cases h1
  exact h

/-! ## A stream written without a capability, read with any capability -/

theorem decodeLeafNode_ser_none (d : Option (ValueEncoder V)) (l : leafNode V)
    (hl : l.key.length < 2 ^ 63) (rest : List Byte) :
    decodeLeafNode d (serLeaf none l ++ rest) = .ok (⟨l.key, none⟩, rest) := by
  have hk : l.key.length < 2 ^ 64 := by omega
  simp only [decodeLeafNode, serLeaf, serValue, List.append_assoc, readBytes_ser _ hk,
    readBool_ser, Option.isSome_none, List.append_nil, List.nil_append]

theorem decodeEdge_ok_unique (ed : edge V) (hwf : edge.WF ed = true) (fuel : Nat)
    (rest : List Byte) (x : edge V × List Byte)
    (h : decodeEdgeWith (decodeNode none fuel) (serEdge none ed ++ rest) = .ok x) :
    x = (edge.mapVal (seenVal none) ed, rest) := by
  have h1 := decodeEdgeWith_mono _ (decodeNode none (max fuel (edge.depth ed)))
    (fun d r => decodeNode_mono none fuel _ (le_max_left _ _) d r) _ x h
  rw [decodeEdge_ser none consistent_none ed _ rest hwf (le_max_right _ _)] at h1
  cases h1
  rfl

mutual
theorem decodeNode_any (d : Option (ValueEncoder V)) :
    ∀ (n : Node V) (fuel : Nat) (rest : List Byte), n.WF = true →
      decodeNode d fuel (serNode none n ++ rest) = decodeNode none fuel (serNode none n ++ rest)
  | .mk leaf pfx edges, 0, rest, _ => by simp only [decodeNode]
  | .mk leaf pfx edges, fuel + 1, rest, hwf => by
    simp only [Node.WF, Bool.and_eq_true, decide_eq_true_eq] at hwf
    obtain ⟨⟨⟨hleaf, hpfx⟩, hlen⟩, hes⟩ := hwf
    have hp : pfx.length < 2 ^ 64 := by omega
    have hedges : decodeEdgesWith (decodeEdgeWith (decodeNode d fuel))
        (serUInt64 edges.length ++ (serEdgeList none edges ++ rest))
        = decodeEdgesWith (decodeEdgeWith (decodeNode none fuel))
            (serUInt64 edges.length ++ (serEdgeList none edges ++ rest)) := by
      simp only [decodeEdgesWith, readUInt64_ser _ (show edges.length < 2 ^ 64 by omega)]
      by_cases h0 : edges.length > 0
      · simp only [h0, if_true, int_of_lt _ hlen, Int.toNat_ofNat,
          decodeEdges_loop_any d edges fuel [] rest hes]
      · simp only [h0, if_false]
    cases leaf with
    | none =>
      simp only [decodeNode, serNode, List.append_assoc, readBool_ser, readBytes_ser _ hp,
        hedges, Bool.false_eq_true, if_false]
    | some l =>
      simp only [decide_eq_true_eq] at hleaf
      simp only [decodeNode, serNode, List.append_assoc, readBool_ser, readBytes_ser _ hp,
        hedges, decodeLeafNode_ser_none _ l hleaf, if_true]
theorem decodeEdges_loop_any (d : Option (ValueEncoder V)) :
    ∀ (es : List (edge V)) (fuel : Nat) (acc : List (edge V)) (rest : List Byte),
      Node.WFEdges es = true →
      decodeEdges.loop (decodeEdgeWith (decodeNode d fuel)) es.length acc
          (serEdgeList none es ++ rest)
        = decodeEdges.loop (decodeEdgeWith (decodeNode none fuel)) es.length acc
            (serEdgeList none es ++ rest)
  | [], fuel, acc, rest, _ => by simp only [List.length_nil, decodeEdges.loop]
  | ed :: es, fuel, acc, rest, hwf => by
    simp only [Node.WFEdges, Bool.and_eq_true] at hwf
    simp only [List.length_cons, decodeEdges.loop, serEdgeList, List.append_assoc,
      decodeEdge_any d ed fuel (serEdgeList none es ++ rest) hwf.1]
    cases hx : decodeEdgeWith (decodeNode none fuel)
        (serEdge none ed ++ (serEdgeList none es ++ rest)) with
    | error err => rfl
    | ok x =>
      have := decodeEdge_ok_unique ed hwf.1 fuel _ x hx
      subst this
      exact decodeEdges_loop_any d es fuel _ rest hwf.2
theorem decodeEdge_any (d : Option (ValueEncoder V)) :
    ∀ (ed : edge V) (fuel : Nat) (rest : List Byte), edge.WF ed = true →
      decodeEdgeWith (decodeNode d fuel) (serEdge none ed ++ rest)
        = decodeEdgeWith (decodeNode none fuel) (serEdge none ed ++ rest)
  | .mk label (some n), fuel, rest, hwf => by
    simp only [edge.WF] at hwf
    simp only [serEdge, List.append_assoc, List.singleton_append, List.cons_append,
      List.nil_append, decodeEdgeWith, readBool_ser, if_true, decodeNode_any d n fuel rest hwf]
  | .mk label none, fuel, rest, _ => by
    simp only [serEdge, List.append_assoc, List.singleton_append, List.cons_append,
      List.nil_append, decodeEdgeWith, readBool_ser, Bool.false_eq_true, if_false]
end

theorem DecodeTree_any (d : Option (ValueEncoder V)) (t : Tree V) (hwf : t.WF = true)
    (fuel : Nat) (extra : List Byte) :
    DecodeTree d fuel (serTree none t ++ extra) = DecodeTree none fuel (serTree none t ++ extra) := by
  rcases t with ⟨root, size⟩
  simp only [Tree.WF, Bool.and_eq_true, decide_eq_true_eq] at hwf
  obtain ⟨⟨hroot, _⟩, _⟩ := hwf
  cases root with
  | none =>
    simp only [DecodeTree, serTree, List.append_assoc, readBool_ser, Bool.false_eq_true,
      if_false]
  | some n =>
    simp only [DecodeTree, serTree, List.append_assoc, readBool_ser, if_true,
      decodeNode_any d n fuel _ hroot]

/-! ## What a successful read consumes -/

theorem readUInt64_consumes (d : List Byte) (v : Nat) (r : List Byte)
    (h : readUInt64 d = .ok (v, r)) : ∃ pre, d = pre ++ r ∧ pre.length = 8 := by
  match d, h with
  | b0 :: b1 :: b2 :: b3 :: b4 :: b5 :: b6 :: b7 :: rest, h =>
    simp only [readUInt64, Except.ok.injEq, Prod.mk.injEq] at h
    exact ⟨[b0, b1, b2, b3, b4, b5, b6, b7], by rw [← h.2]; rfl, rfl⟩
  | [], h => simp [readUInt64] at h
  | [_], h => simp [readUInt64] at h
  | [_, _], h => simp [readUInt64] at h
  | [_, _, _], h => simp [readUInt64] at h
  | [_, _, _, _], h => simp [readUInt64] at h
  | [_, _, _, _, _], h => simp [readUInt64] at h
  | [_, _, _, _, _, _], h => simp [readUInt64] at h
  | [_, _, _, _, _, _, _], h => simp [readUInt64] at h

theorem readBool_consumes (d : List Byte) (b : Bool) (r : List Byte)
    (h : readBool d = .ok (b, r)) : ∃ pre, d = pre ++ r ∧ pre.length = 1 := by
  cases d with
  | nil => simp [readBool] at h
  | cons x rest =>
    simp only [readBool, Except.ok.injEq, Prod.mk.injEq] at h
    exact ⟨[x], by rw [← h.2]; rfl, rfl⟩

theorem readBytes_consumes (d : List Byte) (b r : List Byte)
    (h : readBytes d = .ok (b, r)) : ∃ pre, d = pre ++ r ∧ 8 ≤ pre.length := by
  simp only [readBytes] at h
  cases hl : readUInt64 d with
  | error err => simp [hl] at h
  | ok w =>
    obtain ⟨l, d1⟩ := w
    obtain ⟨pre, hpre, hlen⟩ := readUInt64_consumes d l d1 hl
    simp only [hl] at h
    by_cases h0 : l > 0
    · simp only [h0, if_true] at h
      by_cases h1 : l ≤ d1.length
      · simp only [h1, if_true, Except.ok.injEq, Prod.mk.injEq] at h
        refine ⟨pre ++ d1.take l, ?_, by simp only [List.length_append]; omega⟩
        rw [hpre, ← h.2, List.append_assoc, List.take_append_drop]
      · simp [h1] at h
    · simp only [h0, if_false, Except.ok.injEq, Prod.mk.injEq] at h
      exact ⟨pre, by rw [hpre, h.2], by omega⟩

theorem decodeLeafNode_consumes (d : List Byte) (l : leafNode V) (r : List Byte)
    (h : decodeLeafNode none d = .ok (l, r)) : ∃ pre, d = pre ++ r ∧ 9 ≤ pre.length := by
  simp only [decodeLeafNode] at h
  cases hk : readBytes d with
  | error err => simp [hk] at h
  | ok w =>
    obtain ⟨key, d1⟩ := w
    obtain ⟨pre1, hpre1, hlen1⟩ := readBytes_consumes d key d1 hk
    simp only [hk] at h
    cases hb : readBool d1 with
    | error err => simp [hb] at h
    | ok w2 =>
      obtain ⟨hasValue, d2⟩ := w2
      obtain ⟨pre2, hpre2, hlen2⟩ := readBool_consumes d1 hasValue d2 hb
      simp only [hb, Except.ok.injEq, Prod.mk.injEq] at h
      refine ⟨pre1 ++ pre2, ?_, by simp only [List.length_append]; omega⟩
      rw [hpre1, hpre2, ← h.2, List.append_assoc]

theorem decodeEdgeWith_consumes (dn : List Byte → Except DecodeError (Node V × List Byte))
    (d : List Byte) (ed : edge V) (r : List Byte)
    (hdn : ∀ d1 n r1, dn d1 = .ok (n, r1) → ∃ pre, d1 = pre ++ r1 ∧ 17 ≤ pre.length)
    (h : decodeEdgeWith dn d = .ok (ed, r)) : ∃ pre, d = pre ++ r ∧ 2 ≤ pre.length := by
  cases d with
  | nil => simp [decodeEdgeWith] at h
  | cons label d1 =>
    simp only [decodeEdgeWith] at h
    cases hb : readBool d1 with
    | error err => simp [hb] at h
    | ok w =>
      obtain ⟨hasNode, d2⟩ := w
      obtain ⟨pre2, hpre2, hlen2⟩ := readBool_consumes d1 hasNode d2 hb
      simp only [hb] at h
      cases hasNode with
      | false =>
        simp only [Bool.false_eq_true, if_false, Except.ok.injEq, Prod.mk.injEq] at h
        refine ⟨label :: pre2, ?_, by simp only [List.length_cons]; omega⟩
        rw [hpre2, ← h.2, List.cons_append]
      | true =>
        simp only [if_true] at h
        cases hn : dn d2 with
        | error err => simp [hn] at h
        | ok w3 =>
          obtain ⟨n, d3⟩ := w3
          obtain ⟨pre3, hpre3, _⟩ := hdn d2 n d3 hn
          simp only [hn, Except.ok.injEq, Prod.mk.injEq] at h
          refine ⟨label :: (pre2 ++ pre3), ?_, by
            simp only [List.length_cons, List.length_append]; omega⟩
          rw [hpre2, hpre3, ← h.2, List.cons_append, List.append_assoc]

theorem decodeEdges_loop_consumes (de : List Byte → Except DecodeError (edge V × List Byte))
    (hde : ∀ d1 ed r1, de d1 = .ok (ed, r1) → ∃ pre, d1 = pre ++ r1 ∧ 2 ≤ pre.length) :
    ∀ (k : Nat) (acc : List (edge V)) (d : List Byte) (es : List (edge V)) (r : List Byte),
      decodeEdges.loop de k acc d = .ok (es, r) → ∃ pre, d = pre ++ r
  | 0, acc, d, es, r, h => by
    simp only [decodeEdges.loop, Except.ok.injEq, Prod.mk.injEq] at h
    exact ⟨[], by rw [h.2]; rfl⟩
  | k + 1, acc, d, es, r, h => by
    simp only [decodeEdges.loop] at h
    cases hd : de d with
    | error err => simp [hd] at h
    | ok w =>
      obtain ⟨ed, d1⟩ := w
      obtain ⟨pre1, hpre1, _⟩ := hde d ed d1 hd
      simp only [hd] at h
      obtain ⟨pre2, hpre2⟩ := decodeEdges_loop_consumes de hde k _ d1 es r h
      exact ⟨pre1 ++ pre2, by rw [hpre1, hpre2, List.append_assoc]⟩

theorem decodeEdgesWith_consumes (de : List Byte → Except DecodeError (edge V × List Byte))
    (hde : ∀ d1 ed r1, de d1 = .ok (ed, r1) → ∃ pre, d1 = pre ++ r1 ∧ 2 ≤ pre.length)
    (d : List Byte) (es : List (edge V)) (r : List Byte)
    (h : decodeEdgesWith de d = .ok (es, r)) : ∃ pre, d = pre ++ r ∧ 8 ≤ pre.length := by
  simp only [decodeEdgesWith] at h
  cases hl : readUInt64 d with
  | error err => simp [hl] at h
  | ok w =>
    obtain ⟨l, d1⟩ := w
    obtain ⟨pre, hpre, hlen⟩ := readUInt64_consumes d l d1 hl
    simp only [hl] at h
    by_cases h0 : l > 0
    · simp only [h0, if_true] at h
      obtain ⟨pre2, hpre2⟩ := decodeEdges_loop_consumes de hde _ _ d1 es r h
      exact ⟨pre ++ pre2, by rw [hpre, hpre2, List.append_assoc], by
        simp only [List.length_append]; omega⟩
    · simp only [h0, if_false, Except.ok.injEq, Prod.mk.injEq] at h
      exact ⟨pre, by rw [hpre, h.2], by omega⟩

theorem decodeNode_consumes :
    ∀ (fuel : Nat) (d : List Byte) (n : Node V) (r : List Byte),
      decodeNode none fuel d = .ok (n, r) → ∃ pre, d = pre ++ r ∧ 17 ≤ pre.length
  | 0, d, n, r, h => by simp [decodeNode] at h
  | fuel + 1, d, n, r, h => by
    have ih : ∀ d1 (n1 : Node V) r1, decodeNode none fuel d1 = .ok (n1, r1) →
        ∃ pre, d1 = pre ++ r1 ∧ 17 ≤ pre.length := decodeNode_consumes fuel
    rw [decodeNode] at h
    cases hb : readBool d with
    | error err => simp [hb] at h
    | ok w =>
      obtain ⟨hasLeaf, d1⟩ := w
      obtain ⟨pre1, hpre1, hlen1⟩ := readBool_consumes d hasLeaf d1 hb
      simp only [hb] at h
      have hleafres : ∀ (leaf : Option (leafNode V)) (d2 : List Byte),
          (if hasLeaf = true then
              match decodeLeafNode (none : Option (ValueEncoder V)) d1 with
              | .error err => .error err
              | .ok (l, data) => .ok (some l, data)
            else (.ok (none, d1) : Except DecodeError (Option (leafNode V) × List Byte)))
            = .ok (leaf, d2) → ∃ pre, d1 = pre ++ d2 := by
        intro leaf d2 hres
        cases hasLeaf with
        | false =>
          simp only [Bool.false_eq_true, if_false, Except.ok.injEq, Prod.mk.injEq] at hres
          exact ⟨[], by rw [hres.2]; rfl⟩
        | true =>
          simp only [if_true] at hres
          cases hl : decodeLeafNode (none : Option (ValueEncoder V)) d1 with
          | error err => simp [hl] at hres
          | ok w2 =>
            obtain ⟨l, d2a⟩ := w2
            obtain ⟨pre, hpre, _⟩ := decodeLeafNode_consumes d1 l d2a hl
            simp only [hl, Except.ok.injEq, Prod.mk.injEq] at hres
            exact ⟨pre, by rw [hpre, hres.2]⟩
      split at h
      · simp at h
      · rename_i leaf d2 hleaf
        obtain ⟨pre2, hpre2⟩ := hleafres leaf d2 hleaf
        cases hp : readBytes d2 with
        | error err => simp [hp] at h
        | ok w3 =>
          obtain ⟨pfx, d3⟩ := w3
          obtain ⟨pre3, hpre3, hlen3⟩ := readBytes_consumes d2 pfx d3 hp
          simp only [hp] at h
          cases hes : decodeEdgesWith
              (decodeEdgeWith (decodeNode (none : Option (ValueEncoder V)) fuel)) d3 with
          | error err => simp [hes] at h
          | ok w4 =>
            obtain ⟨es, d4⟩ := w4
            obtain ⟨pre4, hpre4, hlen4⟩ := decodeEdgesWith_consumes _
              (fun d1 ed r1 hd => decodeEdgeWith_consumes _ d1 ed r1 ih hd) d3 es d4 hes
            simp only [hes, Except.ok.injEq, Prod.mk.injEq] at h
            refine ⟨pre1 ++ (pre2 ++ (pre3 ++ pre4)), ?_, by
              simp only [List.length_append]; omega⟩
            rw [hpre1, hpre2, hpre3, hpre4, ← h.2]
            simp only [List.append_assoc]

/-! ## Results that do not depend on the fuel -/

theorem decodeEdgeWith_stable (dn dn1 : List Byte → Except DecodeError (Node V × List Byte))
    (d : List Byte) (h : ∀ d1, dn d1 ≠ .error .OutOfFuel → dn1 d1 = dn d1)
    (hne : decodeEdgeWith dn d ≠ .error .OutOfFuel) :
    decodeEdgeWith dn1 d = decodeEdgeWith dn d := by
  cases d with
  | nil => rfl
  | cons label d1 =>
    simp only [decodeEdgeWith] at hne ⊢
    cases hb : readBool d1 with
    | error err => rfl
    | ok w =>
      obtain ⟨hasNode, d2⟩ := w
      simp only [hb] at hne ⊢
      cases hasNode with
      | false => rfl
      | true =>
        simp only [if_true] at hne ⊢
        have hsub : dn d2 ≠ .error .OutOfFuel := by
          intro hc
          apply hne
          simp only [hc]
        rw [h d2 hsub]

theorem decodeEdges_loop_stable (de de1 : List Byte → Except DecodeError (edge V × List Byte))
    (h : ∀ d1, de d1 ≠ .error .OutOfFuel → de1 d1 = de d1) :
    ∀ (k : Nat) (acc : List (edge V)) (d : List Byte),
      decodeEdges.loop de k acc d ≠ .error .OutOfFuel →
      decodeEdges.loop de1 k acc d = decodeEdges.loop de k acc d
  | 0, acc, d, _ => rfl
  | k + 1, acc, d, hne => by
    simp only [decodeEdges.loop] at hne ⊢
    have hsub : de d ≠ .error .OutOfFuel := by
      intro hc
      apply hne
      simp only [hc]
    rw [h d hsub]
    cases hd : de d with
    | error err => rfl
    | ok w =>
      obtain ⟨ed, d1⟩ := w
      simp only [hd] at hne ⊢
      exact decodeEdges_loop_stable de de1 h k _ d1 hne

theorem decodeEdgesWith_stable (de de1 : List Byte → Except DecodeError (edge V × List Byte))
    (h : ∀ d1, de d1 ≠ .error .OutOfFuel → de1 d1 = de d1) (d : List Byte)
    (hne : decodeEdgesWith de d ≠ .error .OutOfFuel) :
    decodeEdgesWith de1 d = decodeEdgesWith de d := by
  simp only [decodeEdgesWith] at hne ⊢
  cases hl : readUInt64 d with
  | error err => rfl
  | ok w =>
    obtain ⟨l, d1⟩ := w
    simp only [hl] at hne ⊢
    by_cases h0 : l > 0
    · simp only [h0, if_true] at hne ⊢
      exact decodeEdges_loop_stable de de1 h _ _ d1 hne
    · simp only [h0, if_false]

theorem decodeNode_stable_succ (e : Option (ValueEncoder V)) :
    ∀ (fuel : Nat) (d : List Byte), decodeNode e fuel d ≠ .error .OutOfFuel →
      decodeNode e (fuel + 1) d = decodeNode e fuel d
  | 0, d, hne => by simp [decodeNode] at hne
  | fuel + 1, d, hne => by
    have key : ∀ d3, decodeEdgesWith (decodeEdgeWith (decodeNode e fuel)) d3 ≠ .error .OutOfFuel →
        decodeEdgesWith (decodeEdgeWith (decodeNode e (fuel + 1))) d3
          = decodeEdgesWith (decodeEdgeWith (decodeNode e fuel)) d3 :=
      fun d3 h3 => decodeEdgesWith_stable _ _
        (fun d1 h1 => decodeEdgeWith_stable _ _ d1 (decodeNode_stable_succ e fuel) h1) d3 h3
    rw [decodeNode] at hne
    rw [decodeNode, decodeNode]
    cases hb : readBool d with
    | error err => rfl
    | ok w =>
      obtain ⟨hasLeaf, d1⟩ := w
      simp only [hb] at hne ⊢
      split at hne
      · rfl
      · rename_i leaf d2 hleaf
        cases hp : readBytes d2 with
        | error err => rfl
        | ok w3 =>
          obtain ⟨pfx, d3⟩ := w3
          simp only [hp] at hne ⊢
          have hsub : decodeEdgesWith (decodeEdgeWith (decodeNode e fuel)) d3
              ≠ .error .OutOfFuel := by
            intro hc
            apply hne
            simp only [hc]
          rw [key d3 hsub]

theorem decodeNode_stable (e : Option (ValueEncoder V)) (fuel fuel1 : Nat) (h : fuel ≤ fuel1)
    (d : List Byte) (hne : decodeNode e fuel d ≠ .error .OutOfFuel) :
    decodeNode e fuel1 d = decodeNode e fuel d := by
  induction h with
  | refl => rfl
  | step _ ih =>
    rw [decodeNode_stable_succ e _ d (by rw [ih]; exact hne), ih]

theorem DecodeTree_stable (e : Option (ValueEncoder V)) (fuel fuel1 : Nat) (h : fuel ≤ fuel1)
    (d : List Byte) (hne : DecodeTree e fuel d ≠ .error .OutOfFuel) :
    DecodeTree e fuel1 d = DecodeTree e fuel d := by
  simp only [DecodeTree] at hne ⊢
  cases hb : readBool d with
  | error err => rfl
  | ok w =>
    obtain ⟨hasRoot, d1⟩ := w
    simp only [hb] at hne ⊢
    cases hasRoot with
    | false => rfl
    | true =>
      simp only [if_true] at hne ⊢
      have hsub : decodeNode e fuel d1 ≠ .error .OutOfFuel := by
        intro hc
        apply hne
        simp only [hc]
      rw [decodeNode_stable e fuel fuel1 h d1 hsub]

/-! ## Enough fuel -/

theorem readUInt64_error (d : List Byte) (err : DecodeError) (h : readUInt64 d = .error err) :
    err = .TruncatedInput := by
  unfold readUInt64 at h
  split at h
  · cases h
  · cases h
    rfl

theorem readBool_error (d : List Byte) (err : DecodeError) (h : readBool d = .error err) :
    err = .TruncatedInput := by
  cases d with
  | nil =>
    cases h
    rfl
  | cons x rest => cases h

theorem readBytes_error (d : List Byte) (err : DecodeError) (h : readBytes d = .error err) :
    err = .TruncatedInput := by
  simp only [readBytes] at h
  cases hl : readUInt64 d with
  | error e1 =>
    simp only [hl, Except.error.injEq] at h
    rw [← h]
    exact readUInt64_error d e1 hl
  | ok w =>
    obtain ⟨l, d1⟩ := w
    simp only [hl] at h
    by_cases h0 : l > 0
    · by_cases h1 : l ≤ d1.length
      · simp [h0, h1] at h
      · simp only [h0, h1, if_true, if_false, Except.error.injEq] at h
        exact h.symm
    · simp [h0] at h

theorem decodeLeafNode_error (d : List Byte) (err : DecodeError)
    (h : decodeLeafNode (none : Option (ValueEncoder V)) d = .error err) :
    err = .TruncatedInput := by
  simp only [decodeLeafNode] at h
  cases hk : readBytes d with
  | error e1 =>
    simp only [hk, Except.error.injEq] at h
    rw [← h]
    exact readBytes_error d e1 hk
  | ok w =>
    obtain ⟨key, d1⟩ := w
    simp only [hk] at h
    cases hb : readBool d1 with
    | error e1 =>
      simp only [hb, Except.error.injEq] at h
      rw [← h]
      exact readBool_error d1 e1 hb
    | ok w2 => simp [hb] at h

theorem decodeEdgeWith_fuel (dn : List Byte → Except DecodeError (Node V × List Byte))
    (d : List Byte) (h : ∀ d1, d1.length + 2 ≤ d.length → dn d1 ≠ .error .OutOfFuel) :
    decodeEdgeWith dn d ≠ .error .OutOfFuel := by
  intro hc
  cases d with
  | nil => simp [decodeEdgeWith] at hc
  | cons label d1 =>
    simp only [decodeEdgeWith] at hc
    cases hb : readBool d1 with
    | error e1 =>
      simp only [hb, Except.error.injEq] at hc
      have := readBool_error d1 e1 hb
      rw [hc] at this
      cases this
    | ok w =>
      obtain ⟨hasNode, d2⟩ := w
      obtain ⟨pre, hpre, hlen⟩ := readBool_consumes d1 hasNode d2 hb
      simp only [hb] at hc
      cases hasNode with
      | false => simp at hc
      | true =>
        simp only [if_true] at hc
        have hd2 : dn d2 ≠ .error .OutOfFuel := by
          apply h
          rw [hpre]
          simp only [List.length_cons, List.length_append]
          omega
        cases hn : dn d2 with
        | error e1 =>
          simp only [hn, Except.error.injEq] at hc
          rw [hc] at hn
          exact hd2 hn
        | ok w3 => simp [hn] at hc

theorem decodeEdges_loop_fuel (de : List Byte → Except DecodeError (edge V × List Byte))
    (bound : Nat) (h1 : ∀ d1, d1.length ≤ bound → de d1 ≠ .error .OutOfFuel)
    (h2 : ∀ d1 ed r1, de d1 = .ok (ed, r1) → r1.length ≤ d1.length) :
    ∀ (k : Nat) (acc : List (edge V)) (d : List Byte), d.length ≤ bound →
      decodeEdges.loop de k acc d ≠ .error .OutOfFuel
  | 0, acc, d, _ => by simp [decodeEdges.loop]
  | k + 1, acc, d, hd => by
    intro hc
    simp only [decodeEdges.loop] at hc
    cases hx : de d with
    | error e1 =>
      simp only [hx, Except.error.injEq] at hc
      rw [hc] at hx
      exact h1 d hd hx
    | ok w =>
      obtain ⟨ed, d1⟩ := w
      simp only [hx] at hc
      exact decodeEdges_loop_fuel de bound h1 h2 k _ d1 (le_trans (h2 d ed d1 hx) hd) hc

theorem decodeEdgesWith_fuel (de : List Byte → Except DecodeError (edge V × List Byte))
    (d : List Byte) (h1 : ∀ d1, d1.length ≤ d.length → de d1 ≠ .error .OutOfFuel)
    (h2 : ∀ d1 ed r1, de d1 = .ok (ed, r1) → r1.length ≤ d1.length) :
    decodeEdgesWith de d ≠ .error .OutOfFuel := by
  intro hc
  simp only [decodeEdgesWith] at hc
  cases hl : readUInt64 d with
  | error e1 =>
    simp only [hl, Except.error.injEq] at hc
    have := readUInt64_error d e1 hl
    rw [hc] at this
    cases this
  | ok w =>
    obtain ⟨l, d1⟩ := w
    obtain ⟨pre, hpre, hlen⟩ := readUInt64_consumes d l d1 hl
    simp only [hl] at hc
    by_cases h0 : l > 0
    · simp only [h0, if_true] at hc
      refine decodeEdges_loop_fuel de d.length h1 h2 _ _ d1 ?_ hc
      rw [hpre]
      simp only [List.length_append]
      omega
    · simp [h0] at hc

theorem decodeEdge_shorter (fuel : Nat) (d : List Byte) (ed : edge V) (r : List Byte)
    (h : decodeEdgeWith (decodeNode none fuel) d = .ok (ed, r)) : r.length ≤ d.length := by
  obtain ⟨pre, hpre, _⟩ := decodeEdgeWith_consumes _ d ed r (decodeNode_consumes fuel) h
  rw [hpre]
  simp only [List.length_append]
  omega

theorem decodeNode_fuel :
    ∀ (fuel : Nat) (d : List Byte), d.length < fuel →
      decodeNode (none : Option (ValueEncoder V)) fuel d ≠ .error .OutOfFuel
  | 0, d, hd => by omega
  | fuel + 1, d, hd => by
    intro hc
    rw [decodeNode] at hc
    cases hb : readBool d with
    | error e1 =>
      simp only [hb, Except.error.injEq] at hc
      have := readBool_error d e1 hb
      rw [hc] at this
      cases this
    | ok w =>
      obtain ⟨hasLeaf, d1⟩ := w
      obtain ⟨pre1, hpre1, hlen1⟩ := readBool_consumes d hasLeaf d1 hb
      have hd1 : d1.length < fuel := by
        rw [hpre1] at hd
        simp only [List.length_append] at hd
        omega
      simp only [hb] at hc
      have hleafok : ∀ (leaf : Option (leafNode V)) (d2 : List Byte),
          (if hasLeaf = true then
              match decodeLeafNode (none : Option (ValueEncoder V)) d1 with
              | .error err => .error err
              | .ok (l, data) => .ok (some l, data)
            else (.ok (none, d1) : Except DecodeError (Option (leafNode V) × List Byte)))
            = .ok (leaf, d2) → d2.length ≤ d1.length := by
        intro leaf d2 hres
        cases hasLeaf with
        | false =>
          simp only [Bool.false_eq_true, if_false, Except.ok.injEq, Prod.mk.injEq] at hres
          rw [← hres.2]
        | true =>
          simp only [if_true] at hres
          cases hl : decodeLeafNode (none : Option (ValueEncoder V)) d1 with
          | error e1 => simp [hl] at hres
          | ok w2 =>
            obtain ⟨l, d2a⟩ := w2
            obtain ⟨pre, hpre, _⟩ := decodeLeafNode_consumes d1 l d2a hl
            simp only [hl, Except.ok.injEq, Prod.mk.injEq] at hres
            rw [← hres.2, hpre]
            simp only [List.length_append]
            omega
      have hleaferr : ∀ (err : DecodeError),
          (if hasLeaf = true then
              match decodeLeafNode (none : Option (ValueEncoder V)) d1 with
              | .error err => .error err
              | .ok (l, data) => .ok (some l, data)
            else (.ok (none, d1) : Except DecodeError (Option (leafNode V) × List Byte)))
            = .error err → err = .TruncatedInput := by
        intro err hres
        cases hasLeaf with
        | false => simp at hres
        | true =>
          simp only [if_true] at hres
          cases hl : decodeLeafNode (none : Option (ValueEncoder V)) d1 with
          | error e1 =>
            simp only [hl, Except.error.injEq] at hres
            rw [← hres]
            exact decodeLeafNode_error d1 e1 hl
          | ok w2 => simp [hl] at hres
      split at hc
      · rename_i err hleaf
        have := hleaferr err hleaf
        simp only [Except.error.injEq] at hc
        rw [hc] at this
        cases this
      · rename_i leaf d2 hleaf
        have hd2 := hleafok leaf d2 hleaf
        cases hp : readBytes d2 with
        | error e1 =>
          simp only [hp, Except.error.injEq] at hc
          have := readBytes_error d2 e1 hp
          rw [hc] at this
          cases this
        | ok w3 =>
          obtain ⟨pfx, d3⟩ := w3
          obtain ⟨pre3, hpre3, _⟩ := readBytes_consumes d2 pfx d3 hp
          have hd3 : d3.length < fuel := by
            rw [hpre3] at hd2
            simp only [List.length_append] at hd2
            omega
          simp only [hp] at hc
          have hes : decodeEdgesWith
              (decodeEdgeWith (decodeNode (none : Option (ValueEncoder V)) fuel)) d3
              ≠ .error .OutOfFuel :=
            decodeEdgesWith_fuel _ d3
              (fun d4 h4 => decodeEdgeWith_fuel _ d4
                (fun d5 h5 => decodeNode_fuel fuel d5 (by omega)))
              (fun d4 ed r4 h4 => decodeEdge_shorter fuel d4 ed r4 h4)
          cases hx : decodeEdgesWith
              (decodeEdgeWith (decodeNode (none : Option (ValueEncoder V)) fuel)) d3 with
          | error e1 =>
            simp only [hx, Except.error.injEq] at hc
            rw [hc] at hx
            exact hes hx
          | ok w4 => simp [hx] at hc

theorem DecodeTree_fuel (fuel : Nat) (d : List Byte) (hd : d.length ≤ fuel) :
    DecodeTree (none : Option (ValueEncoder V)) fuel d ≠ .error .OutOfFuel := by
  intro hc
  simp only [DecodeTree] at hc
  cases hb : readBool d with
  | error e1 =>
    simp only [hb, Except.error.injEq] at hc
    have := readBool_error d e1 hb
    rw [hc] at this
    cases this
  | ok w =>
    obtain ⟨hasRoot, d1⟩ := w
    obtain ⟨pre1, hpre1, hlen1⟩ := readBool_consumes d hasRoot d1 hb
    have hd1 : d1.length < fuel := by
      rw [hpre1] at hd
      simp only [List.length_append] at hd
      omega
    simp only [hb] at hc
    cases hasRoot with
    | false =>
      simp only [Bool.false_eq_true, if_false] at hc
      cases hs : readUInt64 d1 with
      | error e1 =>
        simp only [hs, Except.error.injEq] at hc
        have := readUInt64_error d1 e1 hs
        rw [hc] at this
        cases this
      | ok w2 => simp [hs] at hc
    | true =>
      simp only [if_true] at hc
      cases hn : decodeNode (none : Option (ValueEncoder V)) fuel d1 with
      | error e1 =>
        simp only [hn, Except.error.injEq] at hc
        rw [hc] at hn
        exact decodeNode_fuel fuel d1 hd1 hn
      | ok w2 =>
        obtain ⟨n, d2⟩ := w2
        simp only [hn] at hc
        cases hs : readUInt64 d2 with
        | error e1 =>
          simp only [hs, Except.error.injEq] at hc
          have := readUInt64_error d2 e1 hs
          rw [hc] at this
          cases this
        | ok w3 => simp [hs] at hc

/-! ## The concrete scenario -/

theorem scenarioTree_eq : scenarioTree = fooBarTree := by rfl

/-! ## Edge counts in the range of `int` -/

/-- Counts that a Go `int` holds: when `decodeEdges` succeeds on a byte sequence
whose first 8 bytes are the big-endian encoding of a count `c < 2^63`, the
returned list has exactly `c` edges and they are the edges that `decodeEdge`
reads one after the other, in that order, from the bytes after the count, up
to the remainder. -/
theorem decodeEdges_count (e : Option (ValueEncoder V)) (fuel : Nat) (data : List Byte)
    (c : Nat) (es : List (edge V)) (rest : List Byte)
    (hok : decodeEdges e fuel data = .ok (es, rest))
    (hcount : data.take 8 = putUInt64 [] c) (hc : c < 2 ^ 63) :
    es.length = c ∧ ReadsEdges (decodeEdge e fuel) (data.drop 8) es rest := by
  have hdata : data = serUInt64 c ++ data.drop 8 := by
    rw [putUInt64_eq, List.nil_append] at hcount
    rw [← hcount, List.take_append_drop]
  have hread : readUInt64 data = .ok (c, data.drop 8) := by
    conv => lhs; rw [hdata]
    exact readUInt64_ser c (by omega) _
  simp only [decodeEdges, decodeEdgesWith, hread] at hok
  by_cases h0 : c > 0
  · simp only [h0, if_true, int_of_lt c hc, Int.toNat_ofNat] at hok
    have := decodeEdges_loop_reads (decodeEdge e fuel) (data.drop 8) c [] (data.drop 8) es rest
      (.done _) hok
    exact ⟨by simpa using this.1, this.2⟩
  · have hc0 : c = 0 := by omega
    subst hc0
    simp only [gt_iff_lt, lt_self_iff_false, if_false, Except.ok.injEq, Prod.mk.injEq] at hok
    obtain ⟨rfl, rfl⟩ := hok
    exact ⟨rfl, .done _⟩

theorem decodeEdges_count_witness :
    (decodeEdges (none : Option (ValueEncoder Byte)) 0 [0, 0, 0, 0, 0, 0, 0, 2, 5, 0, 6, 0, 9]
        = .ok ([.mk 5 none, .mk 6 none], [9])
      ∧ ([0, 0, 0, 0, 0, 0, 0, 2, 5, 0, 6, 0, 9] : List Byte).take 8 = putUInt64 [] 2
      ∧ 2 < 2 ^ 63)
    ∧ (([.mk 5 none, .mk 6 none] : List (edge Byte)).length = 2
      ∧ ReadsEdges (decodeEdge (none : Option (ValueEncoder Byte)) 0)
          (([0, 0, 0, 0, 0, 0, 0, 2, 5, 0, 6, 0, 9] : List Byte).drop 8)
          [.mk 5 none, .mk 6 none] [9]) :=
  ⟨⟨by rfl, by decide, by decide⟩,
   decodeEdges_count none 0 [0, 0, 0, 0, 0, 0, 0, 2, 5, 0, 6, 0, 9] 2 [.mk 5 none, .mk 6 none] [9]
     (by rfl) (by decide) (by decide)⟩
/-! ## The claims -/

/-- C1: without a value capability, decoding the encoding of a well-formed tree
succeeds (with fuel at least the depth of the tree) and returns the same tree
with every leaf value `nil`; when every leaf value already is `nil` the result
is the tree itself, element count included. -/
theorem roundtrip_without_capability (t : Tree V) (hwf : t.WF = true) (fuel : Nat)
    (hf : t.depth ≤ fuel) :
    DecodeTree none fuel (EncodeTree none t) = .ok t.eraseVals
      ∧ (t.eraseVals = t → DecodeTree none fuel (EncodeTree none t) = .ok t) := by
  have h : DecodeTree none fuel (EncodeTree none t) = .ok t.eraseVals := by
    have := DecodeTree_ser none consistent_none t hwf fuel hf []
    rw [List.append_nil] at this
    rw [EncodeTree_eq none appendOnlyOpt_none, this]
    rfl
  exact ⟨h, fun heq => by rw [h, heq]⟩

theorem roundtrip_without_capability_witness :
    (fooBarTree.WF = true ∧ fooBarTree.depth ≤ 3 ∧ fooBarTree.eraseVals = fooBarTree) ∧
    (DecodeTree none 3 (EncodeTree none fooBarTree) = .ok fooBarTree.eraseVals
      ∧ DecodeTree none 3 (EncodeTree none fooBarTree) = .ok fooBarTree) :=
  ⟨⟨by decide, by decide, rfl⟩,
   (roundtrip_without_capability fooBarTree (by decide) 3 (by decide)).1,
   (roundtrip_without_capability fooBarTree (by decide) 3 (by decide)).2 rfl⟩

/-- C2: with an append-only, self-delimiting capability on both sides, decoding
the encoding of a well-formed tree succeeds (with fuel at least the depth of
the tree) and returns the tree itself: keys, values, prefixes, edges in their
stored order and element count. -/
theorem roundtrip_with_capability (enc : ValueEncoder V) (ha : AppendOnly enc)
    (hs : SelfDelimiting enc) (t : Tree V) (hwf : t.WF = true) (fuel : Nat)
    (hf : t.depth ≤ fuel) :
    DecodeTree (some enc) fuel (EncodeTree (some enc) t) = .ok t := by
  have hc : Consistent (some enc) := by
    intro enc' h
    cases h
    exact ⟨ha, hs⟩
  have := DecodeTree_ser (some enc) hc t hwf fuel hf []
  rw [List.append_nil] at this
  rw [EncodeTree_eq (some enc) hc.appendOnly, this]
  rcases t with ⟨root, size⟩
  cases root with
  | none => rfl
  | some n =>
    have hid : Node.mapVal (seenVal (some enc)) n = n := mapVal_node_id n
    simp only [Option.map_some', hid]

theorem roundtrip_with_capability_witness :
    (AppendOnly byteValue ∧ SelfDelimiting byteValue ∧ valuedTree.WF = true
      ∧ valuedTree.depth ≤ 2) ∧
    DecodeTree (some byteValue) 2 (EncodeTree (some byteValue) valuedTree) = .ok valuedTree :=
  ⟨⟨byteValue_appendOnly, byteValue_selfDelimiting, by decide, by decide⟩,
   roundtrip_with_capability byteValue byteValue_appendOnly byteValue_selfDelimiting valuedTree
     (by decide) 2 (by decide)⟩

/-- C3: every strict prefix `p` of the encoding (without capability) of a
well-formed tree makes `DecodeTree` fail: with fuel at least the depth of the
tree the failure is the truncated-input error, and no fuel gives a tree. -/
theorem truncation_safety (t : Tree V) (hwf : t.WF = true) (p q : List Byte)
    (h : p ++ q = EncodeTree none t) (hq : q ≠ []) (fuel : Nat) (hf : t.depth ≤ fuel) :
    DecodeTree (none : Option (ValueEncoder V)) fuel p = .error .TruncatedInput
      ∧ ∀ (fuel1 : Nat) (t1 : Tree V), DecodeTree none fuel1 p ≠ .ok t1 := by
  rw [EncodeTree_eq none appendOnlyOpt_none] at h
  refine ⟨DecodeTree_trunc t hwf fuel hf p q h hq, fun fuel1 t1 hok => ?_⟩
  have h1 := DecodeTree_mono none fuel1 (max fuel1 t.depth) (le_max_left _ _) p t1 hok
  rw [DecodeTree_trunc t hwf (max fuel1 t.depth) (le_max_right _ _) p q h hq] at h1
  cases h1

theorem truncation_safety_witness :
    (oneLeafTree.WF = true
      ∧ (EncodeTree none oneLeafTree).take 12 ++ (EncodeTree none oneLeafTree).drop 12
          = EncodeTree none oneLeafTree
      ∧ (EncodeTree none oneLeafTree).drop 12 ≠ []
      ∧ oneLeafTree.depth ≤ 1)
    ∧ (DecodeTree (none : Option (ValueEncoder Byte)) 1 ((EncodeTree none oneLeafTree).take 12)
          = .error .TruncatedInput
      ∧ ∀ (fuel1 : Nat) (t1 : Tree Byte),
          DecodeTree none fuel1 ((EncodeTree none oneLeafTree).take 12) ≠ .ok t1) :=
  ⟨⟨by decide, by decide, by decide, by decide⟩,
   truncation_safety oneLeafTree (by decide) ((EncodeTree none oneLeafTree).take 12)
     ((EncodeTree none oneLeafTree).drop 12) (by decide) (by decide) 1 (by decide)⟩

/-- C4: without a capability the encoder output is the serialisation of the
grammar `Tree := Bool(hasRoot) [Node] UInt64(size)`,
`Node := Bool(hasLeaf) [Leaf] Bytes(prefix) UInt64(edgeCount) Edge*`,
`Leaf := Bytes(key) Bool(hasValue) [Value]`, `Edge := Byte(label) Bool(hasNode) [Node]`,
with one-byte booleans, 8-byte big-endian integers, length-prefixed byte
strings and the edges in their stored order. -/
theorem encodeTree_byte_layout (t : Tree V) : EncodeTree none t = serTree none t := by
  rcases t with ⟨root, size⟩
  cases root with
  | none =>
    show putUInt64 (putBool [] false) (uint64 size) = serBool false ++ serUInt64 (uint64 size)
    rw [putUInt64_eq, putBool_eq, List.nil_append]
  | some n =>
    show putUInt64 (encodeNode none (putBool [] true) n) (uint64 size)
      = serBool true ++ serNode none n ++ serUInt64 (uint64 size)
    rw [putUInt64_eq, encodeNode_eq none appendOnlyOpt_none n, putBool_eq, List.nil_append]

/-- C5: for any capability the empty tree (no root, count 0) encodes to the
nine bytes `0x00` followed by eight `0x00`, and those nine bytes decode, for
any capability and any fuel, to the tree with no root and count 0. -/
theorem empty_tree_codec (e : Option (ValueEncoder V)) (fuel : Nat) :
    EncodeTree e (⟨none, 0⟩ : Tree V) = [0, 0, 0, 0, 0, 0, 0, 0, 0]
      ∧ EncodeTree e (⟨none, 0⟩ : Tree V) = serBool false ++ serUInt64 0
      ∧ DecodeTree e fuel [0, 0, 0, 0, 0, 0, 0, 0, 0] = .ok (⟨none, 0⟩ : Tree V) := by
  have h : EncodeTree e (⟨none, 0⟩ : Tree V) = putUInt64 (putBool [] false) (uint64 0) := rfl
  refine ⟨?_, ?_, ?_⟩
  · rw [h]; decide
  · rw [h]; decide
  · rfl

/-- C6: `encodeLeafNode` appends the length-prefixed key and then one flag byte;
without a capability the flag is `0` and nothing follows, with a capability the
flag is `1` (whatever the value, `nil` included) and the capability is run on
the buffer that ends in that flag; for an append-only capability the output is
the buffer, the key, the byte `1` and the capability's encoding of the value. -/
theorem leaf_value_presence_flag (dst : List Byte) (l : leafNode V) :
    encodeLeafNode none dst l = dst ++ serBytes l.key ++ [0]
      ∧ (∀ enc : ValueEncoder V,
          encodeLeafNode (some enc) dst l = enc.Encode (dst ++ serBytes l.key ++ [1]) l.val)
      ∧ (∀ enc : ValueEncoder V, AppendOnly enc →
          encodeLeafNode (some enc) dst l
            = dst ++ serBytes l.key ++ [1] ++ enc.Encode [] l.val) := by
  have hnone : encodeLeafNode none dst l = putBool (putBytes dst l.key) false := rfl
  have hsome : ∀ enc : ValueEncoder V,
      encodeLeafNode (some enc) dst l = enc.Encode (putBool (putBytes dst l.key) true) l.val :=
    fun _ => rfl
  refine ⟨?_, fun enc => ?_, fun enc ha => ?_⟩
  · rw [hnone, putBool_eq, putBytes_eq]
    rfl
  · rw [hsome, putBool_eq, putBytes_eq]
    rfl
  · rw [hsome, putBool_eq, putBytes_eq, ha]
    rfl

theorem leaf_value_presence_flag_witness :
    AppendOnly byteValue ∧
    encodeLeafNode (some byteValue) [9] (⟨[97], none⟩ : leafNode Byte)
      = [9] ++ serBytes [97] ++ [1] ++ byteValue.Encode [] none :=
  ⟨byteValue_appendOnly,
   (leaf_value_presence_flag [9] (⟨[97], none⟩ : leafNode Byte)).2.2 byteValue
     byteValue_appendOnly⟩

/-- C7: replacing the final 8 bytes of the encoding (without capability) of a
well-formed tree by the big-endian encoding of any count `c < 2^63` gives a
byte sequence that decodes to the same root as the original encoding and to
the element count `c`, whatever the number of leaves. -/
theorem decoder_trusts_stored_count (t : Tree V) (hwf : t.WF = true) (c : Nat)
    (hc : c < 2 ^ 63) (fuel : Nat) (hf : t.depth ≤ fuel) :
    DecodeTree none fuel
        ((EncodeTree none t).take ((EncodeTree none t).length - 8) ++ putUInt64 [] c)
      = .ok ⟨t.eraseVals.root, (c : Int)⟩
    ∧ DecodeTree none fuel (EncodeTree none t) = .ok ⟨t.eraseVals.root, t.size⟩ := by
  have horig : DecodeTree none fuel (EncodeTree none t) = .ok ⟨t.eraseVals.root, t.size⟩ := by
    have := DecodeTree_ser none consistent_none t hwf fuel hf []
    rw [List.append_nil] at this
    rw [EncodeTree_eq none appendOnlyOpt_none, this]
    rfl
  refine ⟨?_, horig⟩
  have hwf1 : (⟨t.root, (c : Int)⟩ : Tree V).WF = true := by
    simp only [Tree.WF, Bool.and_eq_true, decide_eq_true_eq] at hwf ⊢
    exact ⟨⟨hwf.1.1, by omega⟩, by omega⟩
  have hu : uint64 (c : Int) = c := by
    unfold uint64
    omega
  have hcut : (EncodeTree none t).take ((EncodeTree none t).length - 8) ++ putUInt64 [] c
      = serTree none (⟨t.root, (c : Int)⟩ : Tree V) := by
    rw [EncodeTree_eq none appendOnlyOpt_none, putUInt64_eq, List.nil_append]
    simp only [serTree, hu, List.length_append, serUInt64_length, Nat.add_sub_cancel,
      List.take_left']
  have := DecodeTree_ser none consistent_none (⟨t.root, (c : Int)⟩ : Tree V) hwf1 fuel hf []
  rw [List.append_nil] at this
  rw [hcut, this]
  rfl

theorem decoder_trusts_stored_count_witness :
    (fooBarTree.WF = true ∧ 1000 < 2 ^ 63 ∧ fooBarTree.depth ≤ 3)
    ∧ (DecodeTree none 3
          ((EncodeTree none fooBarTree).take ((EncodeTree none fooBarTree).length - 8)
            ++ putUInt64 [] 1000)
        = .ok ⟨fooBarTree.eraseVals.root, ((1000 : Nat) : Int)⟩
      ∧ DecodeTree none 3 (EncodeTree none fooBarTree)
        = .ok ⟨fooBarTree.eraseVals.root, fooBarTree.size⟩) :=
  ⟨⟨by decide, by decide, by decide⟩,
   decoder_trusts_stored_count fooBarTree (by decide) 1000 (by decide) 3 (by decide)⟩

/-- C8: a defect of the code.  `decodeEdges` tests the count as an unsigned
number (`l > 0`) and bounds its loop by `int(l)`, so a count of `2^63` or more
passes the test, the loop body never runs and the call succeeds with no edges:
on the eight bytes `0xFF`, the big-endian encoding of `2^64 - 1`, the result is
the empty list, not `2^64 - 1` edges.  The neighbouring paths fail on such
input: the largest count below `2^63` makes `decodeEdges` fail on the same
missing edges, and `readBytes` fails on the same eight bytes read as a length.
Inside a stream, a count of `2^63` followed by one edge makes `DecodeTree`
return a root without edges and an element count read from the edge bytes. -/
theorem decodeEdges_accepts_oversized_count :
    decodeEdges (none : Option (ValueEncoder Byte)) 0 [255, 255, 255, 255, 255, 255, 255, 255]
        = .ok ([], [])
      ∧ ([255, 255, 255, 255, 255, 255, 255, 255] : List Byte).take 8
          = putUInt64 [] (2 ^ 64 - 1)
      ∧ ([] : List (edge Byte)).length ≠ 2 ^ 64 - 1
      ∧ ([127, 255, 255, 255, 255, 255, 255, 255] : List Byte) = putUInt64 [] (2 ^ 63 - 1)
      ∧ decodeEdges (none : Option (ValueEncoder Byte)) 0
          [127, 255, 255, 255, 255, 255, 255, 255] = .error .TruncatedInput
      ∧ readBytes [255, 255, 255, 255, 255, 255, 255, 255] = .error .TruncatedInput
      ∧ ([128, 0, 0, 0, 0, 0, 0, 0] : List Byte) = putUInt64 [] (2 ^ 63)
      ∧ DecodeTree (none : Option (ValueEncoder Byte)) 1
          ([1, 0] ++ putUInt64 [] 0 ++ putUInt64 [] (2 ^ 63) ++ [5, 0] ++ putUInt64 [] 1)
          = .ok ⟨some (.mk none [] []), 360287970189639680⟩
      ∧ DecodeTree (none : Option (ValueEncoder Byte)) 1
          ([1, 0] ++ putUInt64 [] 0 ++ putUInt64 [] 1 ++ [5, 0] ++ putUInt64 [] 1)
          = .ok ⟨some (.mk none [] [.mk 5 none]), 1⟩ := by
  refine ⟨?_, ?_, ?_, ?_, ?_, ?_, ?_, ?_, ?_⟩
  · rfl
  · decide
  · decide
  · decide
  · rfl
  · rfl
  · decide
  · rfl
  · rfl

/-- C9: when `decodeLeafNode` runs without a capability and the byte after the
length-prefixed key is `1`, it succeeds with a `nil` value and its remainder is
exactly what follows that byte: no value byte is consumed. -/
theorem leaf_decode_flag_without_capability (data key tail : List Byte) (b : Byte)
    (l : leafNode V) (rest : List Byte)
    (hkey : readBytes data = .ok (key, b :: tail)) (hb : b = 1)
    (hok : decodeLeafNode none data = .ok (l, rest)) :
    l.val = none ∧ l.key = key ∧ rest = tail := by
  subst hb
  simp only [decodeLeafNode, hkey, readBool] at hok
  cases hok
  exact ⟨rfl, rfl, rfl⟩

theorem leaf_decode_flag_without_capability_witness :
    (readBytes [0, 0, 0, 0, 0, 0, 0, 1, 97, 1, 0, 5] = .ok ([97], (1 : Byte) :: [0, 5])
      ∧ (1 : Byte) = 1
      ∧ decodeLeafNode none [0, 0, 0, 0, 0, 0, 0, 1, 97, 1, 0, 5]
          = .ok ((⟨[97], none⟩ : leafNode Byte), [0, 5]))
    ∧ ((⟨[97], none⟩ : leafNode Byte).val = none ∧ (⟨[97], none⟩ : leafNode Byte).key = [97]
      ∧ ([0, 5] : List Byte) = [0, 5]) :=
  ⟨⟨by rfl, rfl, by rfl⟩,
   leaf_decode_flag_without_capability [0, 0, 0, 0, 0, 0, 0, 1, 97, 1, 0, 5] [97] [0, 5] 1
     ⟨[97], none⟩ [0, 5] (by rfl) rfl (by rfl)⟩

/-- C10: there are an append-only, self-delimiting capability and a well-formed
tree (one leaf, whose `nil` value encodes as the byte `0x00`) such that
decoding without a capability what was encoded with it returns, without error,
a tree that is not the original with its values erased: the element count is 0
instead of 1, because the value byte is left unread after the leaf. -/
theorem capability_mismatch_corrupts_silently :
    ∃ (enc : ValueEncoder Byte) (t t1 : Tree Byte),
      AppendOnly enc ∧ SelfDelimiting enc ∧ t.WF = true
      ∧ t.depth = 1
      ∧ (∀ k, DecodeTree none (k + 1) (EncodeTree (some enc) t) = .ok t1)
      ∧ t1 ≠ t.eraseVals ∧ t1.size ≠ t.size ∧ t.size = 1 ∧ t1.size = 0 := by
  refine ⟨byteValue, oneLeafTree, ⟨oneLeafTree.eraseVals.root, 0⟩, byteValue_appendOnly,
    byteValue_selfDelimiting, by decide, by decide, fun k => rfl, ?_, by decide, rfl, rfl⟩
  · intro h
    have : (0 : Int) = 1 := congrArg Tree.size h
    omega

/-- C11 as stated fails: in the tree decoded from the encoding of the scenario
tree (`foo`, `bar`, `foobar` inserted with `nil` values), the node reached from
the root by the edge `f` has the single edge `b` below it; no edge of that
subtree is labelled `o`. -/
theorem scenario_has_no_edge_o :
    ∃ (t1 : Tree Byte) (root nf : Node Byte),
      DecodeTree none 3 (EncodeTree none scenarioTree) = .ok t1
      ∧ t1.root = some root ∧ root.getEdge 102 = some nf
      ∧ nf.labels = [98] ∧ (111 : Byte) ∉ nf.labels := by
  refine ⟨fooBarTree, .mk none []
    [.mk 98 (some (.mk (some ⟨[98, 97, 114], none⟩) [98, 97, 114] [])),
     .mk 102 (some (.mk (some ⟨[102, 111, 111], none⟩) [102, 111, 111]
       [.mk 98 (some (.mk (some ⟨[102, 111, 111, 98, 97, 114], none⟩) [98, 97, 114] []))]))],
    .mk (some ⟨[102, 111, 111], none⟩) [102, 111, 111]
       [.mk 98 (some (.mk (some ⟨[102, 111, 111, 98, 97, 114], none⟩) [98, 97, 114] []))],
    ?_, rfl, rfl, rfl, by decide⟩
  rw [scenarioTree_eq, EncodeTree_eq none appendOnlyOpt_none]
  have := DecodeTree_ser none consistent_none fooBarTree (by decide) 3 (by decide) []
  rw [List.append_nil] at this
  rw [this]
  rfl

/-- C11 amended: encoding the scenario tree (`foo`, `bar`, `foobar` inserted
with `nil` values into the empty tree) without a capability and decoding it
without one gives, at any fuel from 3 on, a tree with element count 3 whose
root has edges labelled `f` and `b`; the node reached by `f` holds the leaf for
key `foo` and has an edge `b` to the node that holds the leaf for key
`foobar`. -/
theorem scenario_roundtrip :
    ∃ (t1 : Tree Byte) (root nf nb : Node Byte),
      (∀ k, DecodeTree none (k + 3) (EncodeTree none scenarioTree) = .ok t1)
      ∧ t1.size = 3 ∧ t1.root = some root
      ∧ (102 : Byte) ∈ root.edges.map edge.label ∧ (98 : Byte) ∈ root.edges.map edge.label
      ∧ root.getEdge 102 = some nf
      ∧ nf.leaf.map leafNode.key = some [102, 111, 111]
      ∧ nf.getEdge 98 = some nb
      ∧ nb.leaf.map leafNode.key = some [102, 111, 111, 98, 97, 114] := by
  refine ⟨fooBarTree, .mk none []
    [.mk 98 (some (.mk (some ⟨[98, 97, 114], none⟩) [98, 97, 114] [])),
     .mk 102 (some (.mk (some ⟨[102, 111, 111], none⟩) [102, 111, 111]
       [.mk 98 (some (.mk (some ⟨[102, 111, 111, 98, 97, 114], none⟩) [98, 97, 114] []))]))],
    .mk (some ⟨[102, 111, 111], none⟩) [102, 111, 111]
       [.mk 98 (some (.mk (some ⟨[102, 111, 111, 98, 97, 114], none⟩) [98, 97, 114] []))],
    .mk (some ⟨[102, 111, 111, 98, 97, 114], none⟩) [98, 97, 114] [],
    ?_, rfl, rfl, by decide, by decide, rfl, rfl, rfl, rfl⟩
  intro k
  rw [scenarioTree_eq, EncodeTree_eq none appendOnlyOpt_none]
  have := DecodeTree_ser none consistent_none fooBarTree (by decide) (k + 3)
    (by
      have : fooBarTree.depth = 3 := by decide
      omega) []
  rw [List.append_nil] at this
  rw [this]
  rfl

/-- C12: for every 64-bit `v`, `putUInt64 dst v` is `dst` followed by exactly 8
bytes whose big-endian value (the sum of `byte_i * 256^(7-i)`) is `v`, and
`readUInt64` on those 8 bytes followed by `rest` returns `v` and `rest`. -/
theorem uint64_codec (v : Nat) (hv : v < 2 ^ 64) (dst rest : List Byte) :
    (∃ bs : List Byte, putUInt64 dst v = dst ++ bs ∧ bs.length = 8 ∧ beValue bs = v)
      ∧ (putUInt64 [] v).length = 8
      ∧ readUInt64 (putUInt64 [] v ++ rest) = .ok (v, rest) := by
  refine ⟨⟨serUInt64 v, putUInt64_eq dst v, serUInt64_length v, ?_⟩, ?_, ?_⟩
  · simp only [beValue, serUInt64_eq, byte, Nat.shiftRight_eq_div_pow, List.range,
      List.range.loop, List.map, List.getD_cons_zero, List.getD_cons_succ, List.sum_cons,
      List.sum_nil]
    omega
  · rw [putUInt64_eq, List.nil_append, serUInt64_length]
  · rw [putUInt64_eq, List.nil_append, readUInt64_ser v hv]

theorem uint64_codec_witness :
    (258 < 2 ^ 64)
    ∧ ((∃ bs : List Byte, putUInt64 [7] 258 = [7] ++ bs ∧ bs.length = 8 ∧ beValue bs = 258)
      ∧ (putUInt64 [] 258).length = 8
      ∧ readUInt64 (putUInt64 [] 258 ++ [9]) = .ok (258, [9])) :=
  ⟨by decide, uint64_codec 258 (by decide) [7] [9]⟩

/-- C13: `putBool` appends exactly one byte, `1` for true and `0` for false;
`readBool` on a non-empty input consumes exactly its first byte and returns
true exactly when that byte is `1`; so `readBool` reads back what `putBool`
wrote and leaves the rest. -/
theorem bool_codec (dst rest : List Byte) (b : Bool) (x : Byte) :
    putBool dst b = dst ++ [if b then (1 : Byte) else 0]
      ∧ readBool (x :: rest) = .ok (decide (x = 1), rest)
      ∧ readBool (putBool [] b ++ rest) = .ok (b, rest) := by
  refine ⟨rfl, ?_, ?_⟩
  · show Except.ok (x == 1, rest) = _
    by_cases hx : x = 1
    · subst hx
      rfl
    · have h1 : (x == 1) = false := by simpa using hx
      have h2 : decide (x = 1) = false := by simpa using hx
      rw [h1, h2]
  · rw [putBool_eq, List.nil_append, readBool_ser]

/-- C14: `putBytes` writes the 8-byte big-endian length followed by the bytes,
and `readBytes` on that followed by `rest` returns the bytes and `rest`; for
the empty sequence the encoding is eight `0x00` bytes and what is read back is
the empty sequence, with `rest` untouched. -/
theorem bytes_codec (b rest : List Byte) (hb : b.length < 2 ^ 64) :
    putBytes [] b = putUInt64 [] b.length ++ b
      ∧ readBytes (putBytes [] b ++ rest) = .ok (b, rest)
      ∧ putBytes [] [] = [0, 0, 0, 0, 0, 0, 0, 0]
      ∧ readBytes ([0, 0, 0, 0, 0, 0, 0, 0] ++ rest) = .ok ([], rest) := by
  refine ⟨?_, ?_, by decide, rfl⟩
  · rw [putBytes_eq, putUInt64_eq, List.nil_append, List.nil_append]
    rfl
  · rw [putBytes_eq, List.nil_append, readBytes_ser b hb]

theorem bytes_codec_witness :
    (([102, 111, 111] : List Byte).length < 2 ^ 64)
    ∧ (putBytes [] [102, 111, 111] = putUInt64 [] ([102, 111, 111] : List Byte).length
          ++ [102, 111, 111]
      ∧ readBytes (putBytes [] [102, 111, 111] ++ [1, 2]) = .ok ([102, 111, 111], [1, 2])
      ∧ putBytes [] [] = [0, 0, 0, 0, 0, 0, 0, 0]
      ∧ readBytes ([0, 0, 0, 0, 0, 0, 0, 0] ++ [1, 2]) = .ok ([], [1, 2])) :=
  ⟨by decide, bytes_codec [102, 111, 111] [1, 2] (by decide)⟩

/-- C15: with no capability or an append-only one, every encoder returns the
buffer it was given followed by what it returns on the empty buffer:
`encodeNode`, `putUInt64`, `putBool`, `putBytes`, `encodeLeafNode`,
`encodeEdges` and `encodeEdge`. -/
theorem encoding_is_append_only (e : Option (ValueEncoder V)) (he : AppendOnlyOpt e)
    (dst : List Byte) (n : Node V) (l : leafNode V) (es : List (edge V)) (ed : edge V)
    (v : Nat) (b : Bool) (bs : List Byte) :
    encodeNode e dst n = dst ++ encodeNode e [] n
      ∧ putUInt64 dst v = dst ++ putUInt64 [] v
      ∧ putBool dst b = dst ++ putBool [] b
      ∧ putBytes dst bs = dst ++ putBytes [] bs
      ∧ encodeLeafNode e dst l = dst ++ encodeLeafNode e [] l
      ∧ encodeEdges e dst es = dst ++ encodeEdges e [] es
      ∧ encodeEdge e dst ed = dst ++ encodeEdge e [] ed := by
  refine ⟨?_, ?_, ?_, ?_, ?_, ?_, ?_⟩
  · rw [encodeNode_eq e he n dst, encodeNode_eq e he n [], List.nil_append]
  · rw [putUInt64_eq dst, putUInt64_eq [], List.nil_append]
  · rw [putBool_eq dst, putBool_eq [], List.nil_append]
  · rw [putBytes_eq dst, putBytes_eq [], List.nil_append]
  · rw [encodeLeafNode_eq e he dst, encodeLeafNode_eq e he [], List.nil_append]
  · rw [encodeEdges_eq e he dst, encodeEdges_eq e he [], List.nil_append, List.append_assoc]
  · rw [encodeEdge_eq e he ed dst, encodeEdge_eq e he ed [], List.nil_append]

theorem encoding_is_append_only_witness :
    AppendOnlyOpt (some byteValue)
    ∧ (encodeNode (some byteValue) [1, 2] (.mk (some ⟨[97], some 7⟩) [97] [.mk 5 none])
          = [1, 2] ++ encodeNode (some byteValue) [] (.mk (some ⟨[97], some 7⟩) [97] [.mk 5 none])
      ∧ putUInt64 [1, 2] 300 = [1, 2] ++ putUInt64 [] 300
      ∧ putBool [1, 2] true = [1, 2] ++ putBool [] true
      ∧ putBytes [1, 2] [97] = [1, 2] ++ putBytes [] [97]
      ∧ encodeLeafNode (some byteValue) [1, 2] ⟨[97], some 7⟩
          = [1, 2] ++ encodeLeafNode (some byteValue) [] ⟨[97], some 7⟩
      ∧ encodeEdges (some byteValue) [1, 2] [.mk 5 none]
          = [1, 2] ++ encodeEdges (some byteValue) [] [.mk 5 none]
      ∧ encodeEdge (some byteValue) [1, 2] (.mk 5 none)
          = [1, 2] ++ encodeEdge (some byteValue) [] (.mk 5 none)) :=
  ⟨appendOnlyOpt_some byteValue byteValue_appendOnly,
   encoding_is_append_only (some byteValue) (appendOnlyOpt_some byteValue byteValue_appendOnly)
     [1, 2] (.mk (some ⟨[97], some 7⟩) [97] [.mk 5 none]) ⟨[97], some 7⟩ [.mk 5 none]
     (.mk 5 none) 300 true [97]⟩

/-- C16: without a capability, `decodeNode` on the encoding of a well-formed
node followed by any `rest` succeeds (with fuel at least the depth of the
node) and returns the node with every leaf value `nil` together with exactly
`rest`. -/
theorem decodeNode_consumes_own_encoding (n : Node V) (hwf : n.WF = true) (fuel : Nat)
    (hf : n.depth ≤ fuel) (rest : List Byte) :
    decodeNode none fuel (encodeNode none [] n ++ rest) = .ok (n.eraseVals, rest) := by
  rw [encodeNode_eq none appendOnlyOpt_none n [], List.nil_append,
    decodeNode_ser none consistent_none n fuel rest hwf hf]
  rfl

theorem decodeNode_consumes_own_encoding_witness :
    ((Node.mk (some ⟨[97], some 7⟩) [97] [.mk 5 none] : Node Byte).WF = true
      ∧ (Node.mk (some ⟨[97], some 7⟩) [97] [.mk 5 none] : Node Byte).depth ≤ 1)
    ∧ decodeNode none 1
        (encodeNode none [] (Node.mk (some ⟨[97], some 7⟩) [97] [.mk 5 none] : Node Byte)
          ++ [1, 2, 3])
      = .ok ((Node.mk (some ⟨[97], some 7⟩) [97] [.mk 5 none] : Node Byte).eraseVals,
          [1, 2, 3]) :=
  ⟨⟨by decide, by decide⟩,
   decodeNode_consumes_own_encoding (.mk (some ⟨[97], some 7⟩) [97] [.mk 5 none]) (by decide) 1
     (by decide) [1, 2, 3]⟩

/-- C17: what was encoded without a capability decodes the same with any
capability, whatever its `Decode` does, at every fuel; with fuel the depth of
the tree both give the tree with every leaf value `nil`. -/
theorem capability_unused_on_plain_stream (enc : ValueEncoder V) (t : Tree V)
    (hwf : t.WF = true) (fuel : Nat) :
    DecodeTree (some enc) fuel (EncodeTree none t) = DecodeTree none fuel (EncodeTree none t)
      ∧ DecodeTree (some enc) t.depth (EncodeTree none t) = .ok t.eraseVals := by
  have h1 := DecodeTree_any (some enc) t hwf fuel []
  have h2 := DecodeTree_any (some enc) t hwf t.depth []
  have h3 := DecodeTree_ser none consistent_none t hwf t.depth (le_refl _) []
  rw [List.append_nil] at h1 h2 h3
  rw [EncodeTree_eq none appendOnlyOpt_none, h1, h2, h3]
  exact ⟨rfl, rfl⟩

theorem capability_unused_on_plain_stream_witness :
    (valuedTree.WF = true)
    ∧ (DecodeTree (some byteValue) 1 (EncodeTree none valuedTree)
          = DecodeTree none 1 (EncodeTree none valuedTree)
      ∧ DecodeTree (some byteValue) valuedTree.depth (EncodeTree none valuedTree)
          = .ok valuedTree.eraseVals) :=
  ⟨by decide, capability_unused_on_plain_stream byteValue valuedTree (by decide) 1⟩

/-- C18: without a capability, `DecodeTree` on the encoding of a well-formed
tree followed by any extra bytes succeeds (with fuel at least the depth of the
tree) and returns what it returns on the encoding alone. -/
theorem decodeTree_ignores_trailing_bytes (t : Tree V) (hwf : t.WF = true) (fuel : Nat)
    (hf : t.depth ≤ fuel) (extra : List Byte) :
    DecodeTree none fuel (EncodeTree none t ++ extra) = .ok t.eraseVals
      ∧ DecodeTree (none : Option (ValueEncoder V)) fuel (EncodeTree none t ++ extra)
          = DecodeTree none fuel (EncodeTree none t) := by
  have h1 := DecodeTree_ser none consistent_none t hwf fuel hf extra
  have h2 := DecodeTree_ser none consistent_none t hwf fuel hf []
  rw [List.append_nil] at h2
  rw [EncodeTree_eq none appendOnlyOpt_none, h1, h2]
  exact ⟨rfl, rfl⟩

theorem decodeTree_ignores_trailing_bytes_witness :
    (fooBarTree.WF = true ∧ fooBarTree.depth ≤ 3)
    ∧ (DecodeTree none 3 (EncodeTree none fooBarTree ++ [1, 255, 0]) = .ok fooBarTree.eraseVals
      ∧ DecodeTree (none : Option (ValueEncoder Byte)) 3 (EncodeTree none fooBarTree ++ [1, 255, 0])
          = DecodeTree none 3 (EncodeTree none fooBarTree)) :=
  ⟨⟨by decide, by decide⟩,
   decodeTree_ignores_trailing_bytes fooBarTree (by decide) 3 (by decide) [1, 255, 0]⟩

/-- C19: without a capability, on every input and with fuel at least the input
length, `DecodeTree` does not run out of fuel and more fuel gives the same
result (a tree or a failure); whenever `decodeNode` succeeds its remainder is a
suffix of the input at least 17 bytes shorter, and whenever `decodeEdge`
succeeds its remainder is a suffix at least 2 bytes shorter. -/
theorem decoding_without_capability_terminates (V : Type) (data : List Byte) (fuel : Nat)
    (hf : data.length ≤ fuel) :
    DecodeTree (none : Option (ValueEncoder V)) fuel data ≠ .error .OutOfFuel
      ∧ (∀ fuel1, fuel ≤ fuel1 →
          DecodeTree (none : Option (ValueEncoder V)) fuel1 data = DecodeTree none fuel data)
      ∧ (∀ (fuel2 : Nat) (n : Node V) (rest : List Byte),
          decodeNode none fuel2 data = .ok (n, rest) →
          ∃ pre, data = pre ++ rest ∧ 17 ≤ pre.length)
      ∧ (∀ (fuel2 : Nat) (ed : edge V) (rest : List Byte),
          decodeEdge none fuel2 data = .ok (ed, rest) →
          ∃ pre, data = pre ++ rest ∧ 2 ≤ pre.length) := by
  have hne := @DecodeTree_fuel V fuel data hf
  refine ⟨hne, fun fuel1 h1 => DecodeTree_stable none fuel fuel1 h1 data hne,
    fun fuel2 n rest h => decodeNode_consumes fuel2 data n rest h,
    fun fuel2 ed rest h => ?_⟩
  exact decodeEdgeWith_consumes _ data ed rest (decodeNode_consumes fuel2) h

theorem decoding_without_capability_terminates_witness :
    (([1, 0, 0, 0, 0, 0, 0, 0, 0, 0, 255, 1, 7] : List Byte).length ≤ 13)
    ∧ (DecodeTree (none : Option (ValueEncoder Byte)) 13
          [1, 0, 0, 0, 0, 0, 0, 0, 0, 0, 255, 1, 7] ≠ .error .OutOfFuel
      ∧ (∀ fuel1, 13 ≤ fuel1 →
          DecodeTree (none : Option (ValueEncoder Byte)) fuel1
              [1, 0, 0, 0, 0, 0, 0, 0, 0, 0, 255, 1, 7]
            = DecodeTree none 13 [1, 0, 0, 0, 0, 0, 0, 0, 0, 0, 255, 1, 7])
      ∧ (∀ (fuel2 : Nat) (n : Node Byte) (rest : List Byte),
          decodeNode none fuel2 [1, 0, 0, 0, 0, 0, 0, 0, 0, 0, 255, 1, 7] = .ok (n, rest) →
          ∃ pre, [1, 0, 0, 0, 0, 0, 0, 0, 0, 0, 255, 1, 7] = pre ++ rest ∧ 17 ≤ pre.length)
      ∧ (∀ (fuel2 : Nat) (ed : edge Byte) (rest : List Byte),
          decodeEdge none fuel2 [1, 0, 0, 0, 0, 0, 0, 0, 0, 0, 255, 1, 7] = .ok (ed, rest) →
          ∃ pre, [1, 0, 0, 0, 0, 0, 0, 0, 0, 0, 255, 1, 7] = pre ++ rest ∧ 2 ≤ pre.length)) :=
  ⟨by decide,
   decoding_without_capability_terminates Byte [1, 0, 0, 0, 0, 0, 0, 0, 0, 0, 255, 1, 7] 13
     (by decide)⟩

end Iradix
